import Mathlib

/-!
Verification of the qwasm server core against its specification.

The Rust sources are shallowly embedded: `HashMap` becomes an association
list observed through `mget`/`mput`/`mdel`, `u64` identifiers become `Nat`,
`i64` sizes become `Int` with explicit two's-complement wrapping where the
source can overflow, and the two recursive node-store operations (`delete`
and the ancestor walk of `move_to`) are given fuel that provably suffices,
so that every definition evaluates by `decide`.
-/

/-! ## Association-list maps (observational model of `std::collections::HashMap`) -/

def mget {κ α : Type} [DecidableEq κ] : List (κ × α) → κ → Option α
  | [], _ => none
  | (k', v) :: rest, k => if k' = k then some v else mget rest k

def mput {κ α : Type} [DecidableEq κ] : List (κ × α) → κ → α → List (κ × α)
  | [], k, v => [(k, v)]
  | (k', v') :: rest, k, v =>
    if k' = k then (k, v) :: rest else (k', v') :: mput rest k v

def mdel {κ α : Type} [DecidableEq κ] : List (κ × α) → κ → List (κ × α)
  | [], _ => []
  | (k', v) :: rest, k => if k' = k then mdel rest k else (k', v) :: mdel rest k

/-! ## Data model (`salt.rs`, `encrypted.rs`, `node.rs`/`nodes.rs`) -/

abbrev Uid := Nat

def NO_PARENT_ID : Uid := 2 ^ 64 - 1

def ROOT_ID : Uid := 0

structure Salt where
  bytes : List Nat
deriving DecidableEq

structure Encrypted where
  ct : List Nat
  salt : Salt
deriving DecidableEq

structure LockedNode where
  id : Uid
  parent_id : Uid
  content : Encrypted
  dirty : Bool
deriving DecidableEq

/-- `nodes.rs` `Error`. -/
inductive NodeError where
  | NotFound : Uid → NodeError
  | NotAllowed : NodeError
deriving DecidableEq

deriving instance DecidableEq for Except

/-- The node store: the `branches` child index and the `nodes` map. -/
structure Nodes where
  branches : List (Uid × List Uid)
  nodes : List (Uid × LockedNode)
deriving DecidableEq

def Nodes.new : Nodes := ⟨[], []⟩

/-- `Nodes::add`: insert the node, append its id to its parent's child list. -/
def Nodes.add (s : Nodes) (node : LockedNode) : Nodes :=
  { nodes := mput s.nodes node.id node
  , branches := mput s.branches node.parent_id
      (((mget s.branches node.parent_id).getD []) ++ [node.id]) }

/-- `parent.retain(|eid| *eid != id)` on the entry of `p`, when that entry exists. -/
def retainChild (branches : List (Uid × List Uid)) (p c : Uid) : List (Uid × List Uid) :=
  match mget branches p with
  | none => branches
  | some l => mput branches p (l.filter (fun e => decide (e ≠ c)))

def branchSum (branches : List (Uid × List Uid)) : Nat :=
  branches.foldr (fun p acc => p.2.length + acc) 0

/-- Fuel-indexed worklist form of the recursion of `Nodes::delete`.
`none` means the fuel ran out (never happens at the fuel used by `Nodes.delete`). -/
def deleteGoF : Nat → Nodes → List Uid → Option (Nodes × List Uid)
  | 0, _, _ => none
  | _ + 1, s, [] => some (s, [])
  | f + 1, s, id :: rest =>
    match mget s.nodes id with
    | none => deleteGoF f s rest
    | some node =>
      let s1 : Nodes := ⟨retainChild s.branches node.parent_id id, mdel s.nodes id⟩
      match mget s1.branches id with
      | none => (deleteGoF f s1 rest).map (fun r => (r.1, id :: r.2))
      | some children =>
        let s2 : Nodes := ⟨mdel s1.branches id, s1.nodes⟩
        (deleteGoF f s2 (children ++ rest)).map (fun r => (r.1, id :: r.2))

/-- An upper bound on the number of steps the deletion worklist can take. -/
def potential (s : Nodes) (ws : List Uid) : Nat :=
  ws.length + branchSum s.branches + s.nodes.length

/-- `Nodes::delete`: remove `id` and, recursively, the children recorded under it
in the branches index; return the removed ids in pre-order. -/
def Nodes.delete (s : Nodes) (id : Uid) : Nodes × List Uid :=
  (deleteGoF (potential s [id] + 1) s [id]).getD (s, [])

/-- Ordered de-duplication, keeping the first occurrence (`seen.insert` filter). -/
def dedupFirstGo : List Uid → List Uid → List Uid
  | _, [] => []
  | seen, x :: xs =>
    if x ∈ seen then dedupFirstGo seen xs else x :: dedupFirstGo (x :: seen) xs

def dedupFirst (l : List Uid) : List Uid := dedupFirstGo [] l

/-- `Nodes::delete_list`: delete each id in turn, flat-mapping the results and
filtering out ids already seen. -/
def Nodes.delete_list (s : Nodes) (ids : List Uid) : Nodes × List Uid :=
  let p := ids.foldl
    (fun (acc : Nodes × List Uid) id =>
      let r := Nodes.delete acc.1 id
      (r.1, acc.2 ++ r.2))
    (s, [])
  (p.1, dedupFirst p.2)

/-- Outcome of the upward ancestor walk in `Nodes::move_to`. -/
inductive WalkRes where
  | root | hitId | missing | outOfFuel
deriving DecidableEq

/-- The `while current != NO_PARENT_ID` loop of `Nodes::move_to`, fuel-indexed. -/
def walkF (s : Nodes) (id : Uid) : Nat → Uid → WalkRes
  | 0, _ => .outOfFuel
  | f + 1, current =>
    if current = NO_PARENT_ID then .root
    else if current = id then .hitId
    else
      match mget s.nodes current with
      | some node => walkF s id f node.parent_id
      | none => .missing

/-- `Nodes::move_to`. `none` models the divergence of the source's walk on a
parent cycle; with fuel `|nodes| + 1` this happens exactly when the walk would
revisit a node and hence never terminate. -/
def Nodes.move_to (s : Nodes) (id new_parent : Uid) :
    Option (Except NodeError Unit × Nodes) :=
  if new_parent = NO_PARENT_ID then some (.error .NotAllowed, s)
  else
    match walkF s id (s.nodes.length + 1) new_parent with
    | .outOfFuel => none
    | .hitId => some (.error .NotAllowed, s)
    | .missing => some (.error (.NotFound new_parent), s)
    | .root =>
      match mget s.nodes id with
      | none => some (.error (.NotFound id), s)
      | some node =>
        if node.parent_id = new_parent then some (.error .NotAllowed, s)
        else
          let b1 := retainChild s.branches node.parent_id id
          some (.ok ()
               , { nodes := mput s.nodes id { node with parent_id := new_parent }
                 , branches := mput b1 new_parent
                     (((mget b1 new_parent).getD []) ++ [id]) })

/-! ## Spec-side companions for the node store -/

/-- `k`-fold iteration of the `parent_id` lookup (the semantic ancestor chain). -/
def iterP (s : Nodes) : Nat → Uid → Option Uid
  | 0, x => some x
  | k + 1, x =>
    match mget s.nodes x with
    | none => none
    | some nd => iterP s k nd.parent_id

/-- No node is reachable from itself by repeatedly following `parent_id`. -/
def AcyclicS (s : Nodes) : Prop := ∀ x k, iterP s (k + 1) x ≠ some x

/-- `x` is a reflexive-transitive descendant of `w`: `x` is a present node whose
ancestor chain reaches `w`. -/
def Desc (s : Nodes) (w x : Uid) : Prop :=
  (mget s.nodes x).isSome ∧ ∃ k, iterP s k x = some w

/-- Pure pre-order traversal of the branches index of the unmodified store,
skipping ids absent from the node map; fuel-indexed in lockstep with
`deleteGoF`. -/
def specGoF (σ : Nodes) : Nat → List Uid → Option (List Uid)
  | 0, _ => none
  | _ + 1, [] => some []
  | f + 1, c :: rest =>
    if (mget σ.nodes c).isSome then
      (specGoF σ f (((mget σ.branches c).getD []) ++ rest)).map (fun l => c :: l)
    else
      specGoF σ f rest

/-- The pre-order list of present reflexive-transitive descendants of `id`
computed through the branches index of the store as it was before the call. -/
def specPre (s : Nodes) (id : Uid) : List Uid :=
  (specGoF s (potential s [id] + 1) [id]).getD []

/-- Running `delete` sequentially for each id, concatenating the results. -/
def seqDelete : Nodes → List Uid → Nodes × List Uid
  | s, [] => (s, [])
  | s, x :: xs =>
    let r := Nodes.delete s x
    let r2 := seqDelete r.1 xs
    (r2.1, r.2 ++ r2.2)

/-- The semantic ancestor walk from `start` hits `id` (before reaching
`NO_PARENT_ID` or a missing node; the loop tests `NO_PARENT_ID` first, so the
sentinel itself is never "hit"). -/
def ancReaches (s : Nodes) (start id : Uid) : Prop :=
  id ≠ NO_PARENT_ID ∧ ∃ k, iterP s k start = some id ∧
    ∀ j, j < k → ∀ v, iterP s j start = some v → v ≠ NO_PARENT_ID ∧ v ≠ id

/-- The semantic ancestor walk from `start` reaches `NO_PARENT_ID` without
hitting `id` or a missing node. -/
def ancRoot (s : Nodes) (start id : Uid) : Prop :=
  ∃ k, iterP s k start = some NO_PARENT_ID ∧
    ∀ j, j < k → ∀ v, iterP s j start = some v → v ≠ NO_PARENT_ID ∧ v ≠ id

/-- The semantic ancestor walk from `start` dies at a node absent from the node
map, without first hitting `id` or `NO_PARENT_ID`. -/
def ancMissing (s : Nodes) (start id : Uid) : Prop :=
  ∃ k v, iterP s k start = some v ∧ mget s.nodes v = none ∧
    ∀ j, j ≤ k → ∀ u, iterP s j start = some u → u ≠ NO_PARENT_ID ∧ u ≠ id

/-! ## Operation sequences over the node store -/

inductive Op where
  | add : LockedNode → Op
  | moveTo : Uid → Uid → Op
  | delete : Uid → Op
deriving DecidableEq

def applyOp (s : Nodes) : Op → Nodes
  | .add n => s.add n
  | .moveTo id np =>
    match s.move_to id np with
    | some (_, s') => s'
    | none => s
  | .delete id => (s.delete id).1

def run (ops : List Op) : Nodes := ops.foldl applyOp Nodes.new

/-- A well-formed `add`: fresh id, the id is not the sentinel, and the parent is
either the sentinel or already present. -/
def wfAdd (s : Nodes) (n : LockedNode) : Bool :=
  (mget s.nodes n.id).isNone && decide (n.id ≠ NO_PARENT_ID) &&
    (decide (n.parent_id = NO_PARENT_ID) || (mget s.nodes n.parent_id).isSome)

def wfFrom : Nodes → List Op → Bool
  | _, [] => true
  | s, op :: ops =>
    (match op with
     | .add n => wfAdd s n
     | _ => true) && wfFrom (applyOp s op) ops

/-- The operation sequence only performs well-formed insertions. -/
def WFOps (ops : List Op) : Prop := wfFrom Nodes.new ops = true

/-- The well-formedness invariant of a node store: node values carry their key,
the sentinel is not a key, parents of present nodes are present (or the
sentinel), the branches index lists exactly the present children of each
parent once, and the parent relation is acyclic. -/
structure StoreInv (s : Nodes) : Prop where
  idKey : ∀ k nd, mget s.nodes k = some nd → nd.id = k
  noSentinel : mget s.nodes NO_PARENT_ID = none
  parentPresent : ∀ k nd, mget s.nodes k = some nd →
    nd.parent_id = NO_PARENT_ID ∨ (mget s.nodes nd.parent_id).isSome
  branchCount : ∀ p c,
    ((mget s.branches p).getD []).count c =
      (match mget s.nodes c with
       | some nd => if nd.parent_id = p then 1 else 0
       | none => 0)
  acyclic : AcyclicS s

/-! ## Share store (`shares.rs`) -/

structure Public where
  id : Uid
  x448 : List Nat
  ed448 : List Nat
deriving DecidableEq

structure Signature where
  bytes : List Nat
deriving DecidableEq

structure Export where
  receiver : Uid
  fs : List Uid
  db : List Uid
deriving DecidableEq

structure IdentityEncrypted where
  ct : List Nat
  eph_x448 : List Nat
deriving DecidableEq

structure LockedShare where
  sender : Public
  exportData : Export
  payload : IdentityEncrypted
  sig : Signature
deriving DecidableEq

structure Lock where
  ct : List Nat
  master_key : Encrypted
deriving DecidableEq

structure Invite where
  user_id : Uid
  sender : Public
  email : String
  payload : Lock
  exportData : Export
  sig : Signature
deriving DecidableEq

structure InviteIntent where
  email : String
  sender : Public
  sig : Signature
  user_id : Uid
  receiver : Option Public
  fs_ids : Option (List Uid)
deriving DecidableEq

structure Shares where
  shares : List LockedShare
  invites : List (String × Invite)
  intents : List (String × InviteIntent)
deriving DecidableEq

def Shares.new : Shares := ⟨[], [], []⟩

def Shares.add_share (sh : Shares) (share : LockedShare) : Shares :=
  { sh with shares := sh.shares ++ [share] }

def Shares.add_invite (sh : Shares) (invite : Invite) : Shares :=
  { sh with invites := mput sh.invites invite.email invite }

def Shares.add_invite_intent (sh : Shares) (intent : InviteIntent) : Shares :=
  { sh with intents := mput sh.intents intent.email intent }

def Shares.get_invite_intent (sh : Shares) (email : String) : Option InviteIntent :=
  mget sh.intents email

def Shares.delete_invite_intent (sh : Shares) (email : String) : Shares :=
  { sh with intents := mdel sh.intents email }

/-- `Shares::ack_invite_intent`: install `receiver = Some(pk)` only when the
intent exists and its receiver is still `None`; report whether anything
changed. -/
def Shares.ack_invite_intent (sh : Shares) (email : String) (pk : Public) :
    Shares × Bool :=
  match mget sh.intents email with
  | none => (sh, false)
  | some intent =>
    match intent.receiver with
    | some _ => (sh, false)
    | none =>
      ({ sh with intents := mput sh.intents email { intent with receiver := some pk } }
      , true)

def Shares.invie_for_mail (sh : Shares) (email : String) : Option Invite :=
  mget sh.invites email

def Shares.delete_invite (sh : Shares) (email : String) : Shares :=
  { sh with invites := mdel sh.invites email }

/-! ## Upload bookkeeping (`s3.rs`) -/

def ALG_AES_GCM : String := "aes-gcm"

structure Upload where
  enc_alg : String
  upload_id : String
  chunk_size : Int
  complete : Bool
deriving DecidableEq

structure Uploads where
  uploads : List (Uid × Upload)
deriving DecidableEq

def Uploads.new : Uploads := ⟨[]⟩

/-- `Uploads::add`: unconditionally (re)register a fresh incomplete record and
return the encryption algorithm name. -/
def Uploads.add (u : Uploads) (file_id : Uid) (upload_id : String)
    (chunk_size : Int) : Uploads × String :=
  (⟨mput u.uploads file_id
      { enc_alg := ALG_AES_GCM, upload_id := upload_id
      , chunk_size := chunk_size, complete := false }⟩
  , ALG_AES_GCM)

def Uploads.get (u : Uploads) (file_id : Uid) : Option Upload :=
  mget u.uploads file_id

/-- `Uploads::mark_as_complete`. -/
def Uploads.mark_as_complete (u : Uploads) (file_id : Uid) : Uploads × Bool :=
  match mget u.uploads file_id with
  | none => (u, false)
  | some up => (⟨mput u.uploads file_id { up with complete := true }⟩, true)

/-- Two's-complement wrap of an `i64` intermediate (release-mode semantics). -/
def w64 (z : Int) : Int := (z + 2 ^ 63) % 2 ^ 64 - 2 ^ 63

/-- `as usize` on a 64-bit platform. -/
def i64ToUsize (z : Int) : Nat := (z % 2 ^ 64).toNat

structure PartitionPlan where
  chunk_size : Int
  num_chunks : Nat
deriving DecidableEq

/-- `partition_file` from `s3.rs`, with the `i64` additions wrapped. -/
def partition_file (file_size : Int) : PartitionPlan :=
  let chunk_size : Int :=
    if file_size < 50 * 1024 * 1024 then 5 * 1024 * 1024
    else if file_size < 500 * 1024 * 1024 then 10 * 1024 * 1024
    else 50 * 1024 * 1024
  let num_chunks : Nat :=
    i64ToUsize (Int.tdiv (w64 (w64 (file_size + chunk_size) - 1)) chunk_size)
  { chunk_size := chunk_size, num_chunks := num_chunks }

/-- The chunk size the specification's tiering table assigns to `file_size`. -/
def specChunkSize (file_size : Int) : Int :=
  if file_size < 50 * 1024 * 1024 then 5 * 1024 * 1024
  else if file_size < 500 * 1024 * 1024 then 10 * 1024 * 1024
  else 50 * 1024 * 1024

/-! ## WebAuthn store (`webauthn.rs`, handlers in `main.rs`) -/

abbrev CredentialId := List Nat

structure Registration where
  challenge : Salt
  prf_salt : Salt
deriving DecidableEq

structure Credential where
  id : CredentialId
  name : String
  attestation : List Nat
  client_data_json : String
deriving DecidableEq

structure Bundle where
  mkBundle ::
  cred : Credential
  mk : Encrypted
deriving DecidableEq

structure Passkey where
  mkPasskey ::
  prf_salt : Salt
  user_id : Uid
  id : CredentialId
  name : String
  pub_key : List Nat
  mk : Encrypted
deriving DecidableEq

structure Webauthn where
  pending_registrations : List (Uid × Registration)
  auth_challenges : List (Uid × Salt)
  passkeys : List (CredentialId × Passkey)
deriving DecidableEq

def Webauthn.new : Webauthn := ⟨[], [], []⟩

def Webauthn.add_registration (w : Webauthn) (id : Uid) (reg : Registration) : Webauthn :=
  { w with pending_registrations := mput w.pending_registrations id reg }

/-- One-shot: remove and return the pending registration. -/
def Webauthn.consume_registration (w : Webauthn) (user_id : Uid) :
    Option Registration × Webauthn :=
  (mget w.pending_registrations user_id
  , { w with pending_registrations := mdel w.pending_registrations user_id })

def Webauthn.add_passkey (w : Webauthn) (user_id : Uid) (prf_salt : Salt)
    (bundle : Bundle) : Webauthn :=
  let pk : Passkey :=
    { prf_salt := prf_salt, id := bundle.cred.id, user_id := user_id
    , name := bundle.cred.name, pub_key := bundle.cred.attestation
    , mk := bundle.mk }
  { w with passkeys := mput w.passkeys bundle.cred.id pk }

/-- The source's verification of the registration challenge: a stub that
accepts everything (`// TODO: implement`). -/
def verify_reg_challenge (_ch : String) (_against : Salt) : Bool := true

inductive MainError where
  | Io : String → MainError
  | Unauthorised : MainError
  | NotFound : Uid → MainError
  | NoInvite : String → MainError
deriving DecidableEq

/-- The `webauthn_finish_reg` handler of `main.rs` (its effect on the store). -/
def webauthn_finish_reg (w : Webauthn) (user_id : Uid) (bundle : Bundle) :
    Except MainError Webauthn :=
  match Webauthn.consume_registration w user_id with
  | (none, _) => .error .Unauthorised
  | (some reg, w') =>
    if verify_reg_challenge bundle.cred.client_data_json reg.challenge then
      .ok (w'.add_passkey user_id reg.prf_salt bundle)
    else
      .error .Unauthorised

/-! ## User store and the signup façade (`users.rs`, `main.rs`) -/

structure Users where
  credentials : List (String × Uid)
  public_keys : List (Uid × Public)
  private_keys : List (Uid × Lock)
deriving DecidableEq

def Users.new : Users := ⟨[], [], []⟩

def Users.add_priv (u : Users) (id : Uid) (pr : Lock) : Users :=
  { u with private_keys := mput u.private_keys id pr }

def Users.add_pub (u : Users) (id : Uid) (pb : Public) : Users :=
  { u with public_keys := mput u.public_keys id pb }

def Users.add_credentials (u : Users) (email : String) (id : Uid) : Users :=
  { u with credentials := mput u.credentials email id }

structure LockedUser where
  encrypted_priv : Lock
  _pub : Public
  shares : List LockedShare
  pending_invite_intents : List InviteIntent
  roots : List LockedNode
deriving DecidableEq

structure Signup where
  email : String
  pass : String
  user : LockedUser
deriving DecidableEq

/-- The stores the `signup` handler touches. -/
structure ServerState where
  nodes : Nodes
  sharesStore : Shares
  users : Users
deriving DecidableEq

/-- The `signup` handler of `main.rs`, in its execution order: acknowledge any
invite intent, insert the root nodes, append the shares, delete the pinned
invite, then register the private bundle, public identity, and credentials. -/
def signup (st : ServerState) (payload : Signup) : ServerState :=
  let user := payload.user
  let user_id := user._pub.id
  let sh0 := (st.sharesStore.ack_invite_intent payload.email user._pub).1
  let nodes' := user.roots.foldl (fun ns n => Nodes.add ns n) st.nodes
  let sh1 := user.shares.foldl (fun sh s => Shares.add_share sh s) sh0
  let sh2 := sh1.delete_invite payload.email
  let users' :=
    ((st.users.add_priv user_id user.encrypted_priv).add_pub user_id user._pub).add_credentials
      payload.email user_id
  { nodes := nodes', sharesStore := sh2, users := users' }

/-! ## Concrete objects used in counterexamples and witnesses -/

def encStub : Encrypted := ⟨[], ⟨[]⟩⟩

def mkNode (i p : Uid) : LockedNode := ⟨i, p, encStub, false⟩

/-- Store with `1 ↦ parent 2`, `2 ↦ parent 3`, `3` absent. -/
def c1Store : Nodes := (Nodes.new.add (mkNode 1 2)).add (mkNode 2 3)

/-- A small well-formed tree: root `0`, children `1` and `2`. -/
def c1WitStore : Nodes :=
  ((Nodes.new.add (mkNode 0 NO_PARENT_ID)).add (mkNode 1 0)).add (mkNode 2 0)

/-- Store built by a duplicate-id insertion, a deletion leaving a stale index
entry `1 ↦ [2]`, and an insertion hanging `3` under the stale id `2`. -/
def c2Store : Nodes :=
  ((((Nodes.new.add (mkNode 1 NO_PARENT_ID)).add (mkNode 2 1)).add
    (mkNode 2 7)).delete 2).1.add (mkNode 3 2)

def c3Ops : List Op := [Op.add (mkNode 5 5)]

def c4Ops : List Op := [Op.add (mkNode 2 3), Op.add (mkNode 3 2)]

def saltC5 : Salt := ⟨[1, 2, 3]⟩

def regC5 : Registration := ⟨saltC5, ⟨[4]⟩⟩

def wC5 : Webauthn := Webauthn.new.add_registration 7 regC5

/-- A bundle whose `client_data_json` is empty: it carries no challenge field at
all, so its challenge certainly does not decode to `saltC5`. -/
def bundleC5 : Bundle := ⟨⟨[9], "key-1", [3, 3], ""⟩, encStub⟩

def pkC5 : Passkey :=
  { prf_salt := ⟨[4]⟩, user_id := 7, id := [9], name := "key-1"
  , pub_key := [3, 3], mk := encStub }

def pubA : Public := ⟨21, [1], [2]⟩

def pubB : Public := ⟨22, [3], [4]⟩

def sigStub : Signature := ⟨[0]⟩

def intentC6 : InviteIntent :=
  { email := "a@b.c", sender := pubA, sig := sigStub, user_id := 33
  , receiver := none, fs_ids := none }

def shC6 : Shares := Shares.new.add_invite_intent intentC6

def c1MoveRes : Except NodeError Unit × Nodes :=
  (c1WitStore.move_to 1 2).getD (.error .NotAllowed, Nodes.new)

/-- A well-formed operation sequence: a root and a child. -/
def c2WitOps : List Op :=
  [Op.add (mkNode 0 NO_PARENT_ID), Op.add (mkNode 1 0), Op.add (mkNode 2 0)]

/-- A well-formed operation sequence exercising all three operations. -/
def c3WitOps : List Op :=
  [Op.add (mkNode 0 NO_PARENT_ID), Op.add (mkNode 1 0), Op.add (mkNode 2 0)
  , Op.moveTo 2 1, Op.delete 1]

def c4WitOps : List Op := [Op.add (mkNode 0 NO_PARENT_ID), Op.add (mkNode 1 0)]

def c9State : ServerState := ⟨Nodes.new, Shares.new, Users.new⟩

/-- A signup payload whose two root nodes carry the same id `0`. -/
def c9Payload : Signup :=
  { email := "a@b.c", pass := "pw"
  , user := { encrypted_priv := ⟨[], encStub⟩, _pub := pubA
            , shares := [], pending_invite_intents := []
            , roots := [mkNode 0 NO_PARENT_ID, mkNode 0 5] } }

/-- A signup payload with two distinct roots and one share. -/
def c9WitPayload : Signup :=
  { email := "a@b.c", pass := "pw"
  , user := { encrypted_priv := ⟨[], encStub⟩, _pub := pubA
            , shares := [], pending_invite_intents := []
            , roots := [mkNode 0 NO_PARENT_ID, mkNode 1 0] } }

/-! ## Lemmas about the association-list maps -/

theorem mget_mput_self {κ α : Type} [DecidableEq κ] (m : List (κ × α)) (k : κ) (v : α) :
    mget (mput m k v) k = some v := by
  induction m with
  | nil => simp [mput, mget]
  | cons hd tl ih =>
    obtain ⟨k', v'⟩ := hd
    by_cases h : k' = k <;> simp [mput, mget, h, ih]

theorem mget_mput_ne {κ α : Type} [DecidableEq κ] (m : List (κ × α)) (k k' : κ) (v : α)
    (h : k ≠ k') : mget (mput m k v) k' = mget m k' := by
  induction m with
  | nil => simp [mput, mget, h]
  | cons hd tl ih =>
    obtain ⟨k'', v'⟩ := hd
    by_cases h2 : k'' = k
    · subst h2
      simp [mput, mget, h]
    · simp [mput, h2, mget]
      by_cases h3 : k'' = k' <;> simp [h3, ih]

theorem mget_mdel_self {κ α : Type} [DecidableEq κ] (m : List (κ × α)) (k : κ) :
    mget (mdel m k) k = none := by
  induction m with
  | nil => simp [mdel, mget]
  | cons hd tl ih =>
    obtain ⟨k', v⟩ := hd
    by_cases h : k' = k <;> simp [mdel, mget, h, ih]

theorem mget_mdel_ne {κ α : Type} [DecidableEq κ] (m : List (κ × α)) (k k' : κ)
    (h : k ≠ k') : mget (mdel m k) k' = mget m k' := by
  induction m with
  | nil => simp [mdel]
  | cons hd tl ih =>
    obtain ⟨k'', v⟩ := hd
    simp only [mdel]
    by_cases h2 : k'' = k
    · rw [if_pos h2, ih]
      have h4 : ¬ k'' = k' := by rw [h2]; exact h
      simp only [mget, if_neg h4]
    · rw [if_neg h2]
      simp only [mget]
      by_cases h3 : k'' = k' <;> simp [h3, ih]

/-! ## C8: `delete_list` is the de-duplicated concatenation of sequential deletes -/

theorem foldl_delete_eq_seqDelete (ids : List Uid) (s : Nodes) (acc : List Uid) :
    ids.foldl
      (fun (a : Nodes × List Uid) id =>
        let r := Nodes.delete a.1 id
        (r.1, a.2 ++ r.2)) (s, acc)
    = ((seqDelete s ids).1, acc ++ (seqDelete s ids).2) := by
  induction ids generalizing s acc with
  | nil => simp [seqDelete]
  | cons x xs ih =>
    simp only [List.foldl, seqDelete, ih, List.append_assoc]

/-- C8. `delete_list(L)` returns the ordered de-duplication (first occurrences
kept) of the concatenation of the results of running `delete(x)` sequentially
for each `x ∈ L`, and leaves the store in the state that sequence of deletes
produces. -/
theorem delete_list_eq_dedup_seq (s : Nodes) (L : List Uid) :
    Nodes.delete_list s L = ((seqDelete s L).1, dedupFirst (seqDelete s L).2) := by
  unfold Nodes.delete_list
  rw [foldl_delete_eq_seqDelete]
  simp

/-! ## C10: `Uploads::add` always restarts the record -/

/-- C10. `Uploads::add` returns `"aes-gcm"` and unconditionally installs a fresh
record with `complete = false` (leaving other files alone); in particular a file
whose upload was already marked complete is tracked as incomplete again. -/
theorem uploads_add_resets (u : Uploads) (fid : Uid) (uid : String) (cs : Int) :
    (u.add fid uid cs).2 = "aes-gcm"
    ∧ (u.add fid uid cs).1.get fid =
        some { enc_alg := "aes-gcm", upload_id := uid, chunk_size := cs, complete := false }
    ∧ (∀ x, x ≠ fid → (u.add fid uid cs).1.get x = u.get x)
    ∧ (∀ uid2 cs2,
        (((u.add fid uid cs).1.mark_as_complete fid).1.add fid uid2 cs2).1.get fid =
          some { enc_alg := "aes-gcm", upload_id := uid2, chunk_size := cs2, complete := false }) := by
  refine ⟨rfl, ?_, ?_, ?_⟩
  · simp [Uploads.add, Uploads.get, mget_mput_self, ALG_AES_GCM]
  · intro x hx
    simp [Uploads.add, Uploads.get, mget_mput_ne _ _ _ _ (Ne.symm hx)]
  · intro uid2 cs2
    simp [Uploads.add, Uploads.get, mget_mput_self, ALG_AES_GCM]

/-! ## C5: the registration-challenge check is a stub that accepts mismatches -/

/-- C5 (code bug evidence). With a pending registration stored for user `7`
under challenge `saltC5`, finishing registration with a bundle whose
`client_data_json` is empty (hence whose challenge cannot possibly decode to
`saltC5`) succeeds and stores the passkey anyway, because
`verify_reg_challenge` is a stub that returns `true` for every input. -/
theorem finish_reg_stub_accepts_mismatch :
    verify_reg_challenge bundleC5.cred.client_data_json regC5.challenge = true
    ∧ webauthn_finish_reg wC5 7 bundleC5 =
        .ok { pending_registrations := [], auth_challenges := []
            , passkeys := [([9], pkC5)] }
    ∧ (webauthn_finish_reg wC5 7 bundleC5 ≠ .error .Unauthorised) := by
  refine ⟨rfl, by decide, by decide⟩

/-! ## C6: invite-intent acknowledgement happens at most once -/

/-- C6. The first acknowledgement of an intent whose receiver is `None` stores
the acknowledging key and returns `true`; any later acknowledgement returns
`false` and leaves the stored receiver untouched; acknowledging an email with
no stored intent returns `false` and changes nothing. -/
theorem ack_invite_intent_once (sh : Shares) (e : String) (pk1 : Public) :
    (sh.get_invite_intent e = none → sh.ack_invite_intent e pk1 = (sh, false))
    ∧ (∀ intent, sh.get_invite_intent e = some intent → intent.receiver = none →
        (sh.ack_invite_intent e pk1).2 = true
        ∧ (sh.ack_invite_intent e pk1).1.get_invite_intent e
            = some { intent with receiver := some pk1 }
        ∧ ∀ pk2, (sh.ack_invite_intent e pk1).1.ack_invite_intent e pk2
            = ((sh.ack_invite_intent e pk1).1, false))
    ∧ (∀ intent pk0, sh.get_invite_intent e = some intent →
        intent.receiver = some pk0 → sh.ack_invite_intent e pk1 = (sh, false)) := by
  refine ⟨?_, ?_, ?_⟩
  · intro h
    simp only [Shares.get_invite_intent] at h
    simp [Shares.ack_invite_intent, h]
  · intro intent h hr
    simp only [Shares.get_invite_intent] at h
    simp only [Shares.ack_invite_intent, h, hr]
    refine ⟨by simp, ?_, ?_⟩
    · simp [Shares.get_invite_intent, mget_mput_self]
    · intro pk2
      simp [Shares.ack_invite_intent, mget_mput_self]
  · intro intent pk0 h hr
    simp only [Shares.get_invite_intent] at h
    simp [Shares.ack_invite_intent, h, hr]

/-- Witness for C6 at a concrete store holding one unacknowledged intent. -/
theorem ack_invite_intent_once_witness :
    shC6.get_invite_intent "a@b.c" = some intentC6
    ∧ ((shC6.ack_invite_intent "a@b.c" pubB).2 = true
       ∧ (shC6.ack_invite_intent "a@b.c" pubB).1.get_invite_intent "a@b.c"
           = some { intentC6 with receiver := some pubB }
       ∧ ∀ pk2, (shC6.ack_invite_intent "a@b.c" pubB).1.ack_invite_intent "a@b.c" pk2
           = ((shC6.ack_invite_intent "a@b.c" pubB).1, false)) :=
  ⟨by decide
  , (ack_invite_intent_once shC6 "a@b.c" pubB).2.1 intentC6 (by decide) (by decide)⟩

/-! ## C7: the chunking plan -/

/-- C7 (amended with the `i64`-overflow bound). For sizes that do not overflow
the `file_size + chunk_size - 1` intermediate, the plan picks the tiered chunk
size and `ceil(file_size / chunk_size)` chunks (zero for an empty file). -/
theorem partition_file_plan (fs : Int) (h0 : 0 ≤ fs)
    (h1 : fs + 50 * 1024 * 1024 - 1 < 2 ^ 63) :
    (partition_file fs).chunk_size = specChunkSize fs
    ∧ (partition_file fs).num_chunks
        = (fs.toNat + (specChunkSize fs).toNat - 1) / (specChunkSize fs).toNat := by
  obtain ⟨n, rfl⟩ := Int.eq_ofNat_of_zero_le h0
  have hn : n < 2 ^ 63 := by omega
  by_cases hc1 : (n : Int) < 50 * 1024 * 1024
  · refine ⟨by simp [partition_file, specChunkSize, hc1], ?_⟩
    have hw : w64 (w64 ((n : Int) + 5 * 1024 * 1024) - 1)
        = ((n + 5242880 - 1 : Nat) : Int) := by
      simp only [w64]
      omega
    have ht : Int.tdiv ((n + 5242880 - 1 : Nat) : Int) (5 * 1024 * 1024)
        = (((n + 5242880 - 1) / 5242880 : Nat) : Int) := rfl
    have hd := Nat.div_le_self (n + 5242880 - 1) 5242880
    simp only [partition_file, specChunkSize, hc1, if_true, hw, ht, i64ToUsize,
      show ((5 * 1024 * 1024 : Int)).toNat = 5242880 from rfl]
    omega
  · by_cases hc2 : (n : Int) < 500 * 1024 * 1024
    · refine ⟨by simp [partition_file, specChunkSize, hc1, hc2], ?_⟩
      have hw : w64 (w64 ((n : Int) + 10 * 1024 * 1024) - 1)
          = ((n + 10485760 - 1 : Nat) : Int) := by
        simp only [w64]
        omega
      have ht : Int.tdiv ((n + 10485760 - 1 : Nat) : Int) (10 * 1024 * 1024)
          = (((n + 10485760 - 1) / 10485760 : Nat) : Int) := rfl
      have hd := Nat.div_le_self (n + 10485760 - 1) 10485760
      simp only [partition_file, specChunkSize, hc1, hc2, if_true, if_false, hw, ht,
        i64ToUsize, show ((10 * 1024 * 1024 : Int)).toNat = 10485760 from rfl]
      omega
    · refine ⟨by simp [partition_file, specChunkSize, hc1, hc2], ?_⟩
      have hw : w64 (w64 ((n : Int) + 50 * 1024 * 1024) - 1)
          = ((n + 52428800 - 1 : Nat) : Int) := by
        simp only [w64]
        omega
      have ht : Int.tdiv ((n + 52428800 - 1 : Nat) : Int) (50 * 1024 * 1024)
          = (((n + 52428800 - 1) / 52428800 : Nat) : Int) := rfl
      have hd := Nat.div_le_self (n + 52428800 - 1) 52428800
      simp only [partition_file, specChunkSize, hc1, hc2, if_true, if_false, hw, ht,
        i64ToUsize, show ((50 * 1024 * 1024 : Int)).toNat = 52428800 from rfl]
      omega

/-- Witness for C7 at `file_size = 6 MiB` (1 MiB = 1048576 bytes). -/
theorem partition_file_plan_witness :
    (0 : Int) ≤ 6 * 1024 * 1024
    ∧ ((6 * 1024 * 1024 : Int) + 50 * 1024 * 1024 - 1 < 2 ^ 63)
    ∧ ((partition_file (6 * 1024 * 1024)).chunk_size = specChunkSize (6 * 1024 * 1024)
       ∧ (partition_file (6 * 1024 * 1024)).num_chunks
           = ((6 * 1024 * 1024 : Int).toNat + (specChunkSize (6 * 1024 * 1024)).toNat - 1)
               / (specChunkSize (6 * 1024 * 1024)).toNat) :=
  ⟨by decide, by decide, partition_file_plan (6 * 1024 * 1024) (by decide) (by decide)⟩

/-- C7 counterexample to the claim as stated: at `file_size = 2^63 - 1` (a
non-negative `i64`), the intermediate `file_size + chunk_size - 1` overflows, so
`num_chunks` is not `ceil(file_size / chunk_size)` (the spec formula would give
175921860445). -/
theorem partition_file_overflow :
    partition_file (2 ^ 63 - 1) =
      { chunk_size := 50 * 1024 * 1024, num_chunks := 18446743897787691173 }
    ∧ ((2 ^ 63 - 1 : Nat) + (50 * 1024 * 1024 - 1)) / (50 * 1024 * 1024) = 175921860445
    ∧ (18446743897787691173 : Nat) ≠ 175921860445 := by
  refine ⟨by decide, by decide, by decide⟩

/-! ## Ancestor-chain machinery -/

theorem iterP_add (s : Nodes) (a b : Nat) (x : Uid) :
    iterP s (a + b) x = (iterP s a x).bind (fun y => iterP s b y) := by
  induction a generalizing x with
  | zero => simp [iterP]
  | succ a ih =>
    have hs : a + 1 + b = (a + b) + 1 := by omega
    rw [hs]
    show (match mget s.nodes x with
          | none => none
          | some nd => iterP s (a + b) nd.parent_id) = _
    cases hx : mget s.nodes x with
    | none => simp [iterP, hx]
    | some nd =>
      simp only [iterP, hx, ih]

theorem iterP_isSome_of_le (s : Nodes) {j k : Nat} (x : Uid) (h : j ≤ k)
    (hk : (iterP s k x).isSome) : (iterP s j x).isSome := by
  obtain ⟨d, rfl⟩ : ∃ d, k = j + d := ⟨k - j, by omega⟩
  rw [iterP_add] at hk
  cases hj : iterP s j x with
  | none => rw [hj] at hk; simp at hk
  | some y => simp

theorem iterP_one (s : Nodes) (x : Uid) :
    iterP s 1 x = (mget s.nodes x).map (fun nd => nd.parent_id) := by
  cases hx : mget s.nodes x <;> simp [iterP, hx]

theorem iterP_val_present (s : Nodes) {j k : Nat} {x t v : Uid}
    (h : iterP s k x = some t) (hj : j < k) (hv : iterP s j x = some v) :
    (mget s.nodes v).isSome := by
  have h1 : (iterP s (j + 1) x).isSome :=
    iterP_isSome_of_le s (j := j + 1) (k := k) x (by omega) (by simp [h])
  rw [iterP_add, hv] at h1
  simp only [iterP_one] at h1
  simpa using h1

theorem mget_isSome_mem_keys {κ α : Type} [DecidableEq κ] (m : List (κ × α)) (k : κ)
    (h : (mget m k).isSome) : k ∈ m.map Prod.fst := by
  induction m with
  | nil => simp [mget] at h
  | cons hd tl ih =>
    obtain ⟨k', v⟩ := hd
    by_cases hk : k' = k
    · simp [hk]
    · simp only [mget, if_neg hk] at h
      simp [ih h]

theorem exists_short_reach (s : Nodes) (x t : Uid) :
    ∀ k, iterP s k x = some t →
      ∃ k', k' ≤ k ∧ iterP s k' x = some t ∧
        ∀ i j, i < j → j < k' → iterP s i x ≠ iterP s j x := by
  intro k
  induction k using Nat.strong_induction_on with
  | _ k ih =>
    intro hk
    by_cases hd : ∀ i j, i < j → j < k → iterP s i x ≠ iterP s j x
    · exact ⟨k, le_refl _, hk, hd⟩
    · push_neg at hd
      obtain ⟨i, j, hij, hjk, heq⟩ := hd
      have hsplit : iterP s (j + (k - j)) x = some t := by
        rw [show j + (k - j) = k by omega]
        exact hk
      rw [iterP_add, ← heq, ← iterP_add] at hsplit
      have hlt : i + (k - j) < k := by omega
      obtain ⟨k', hk1, hk2, hk3⟩ := ih _ hlt hsplit
      exact ⟨k', by omega, hk2, hk3⟩

theorem short_reach_le (s : Nodes) (x t : Uid) (k : Nat)
    (hk : iterP s k x = some t)
    (hdist : ∀ i j, i < j → j < k → iterP s i x ≠ iterP s j x) :
    k ≤ s.nodes.length := by
  classical
  have hcard := Finset.card_le_card_of_injOn
    (f := fun j => (iterP s j x).getD 0)
    (s := Finset.range k) (t := (s.nodes.map Prod.fst).toFinset) ?_ ?_
  · calc k = (Finset.range k).card := by simp
      _ ≤ (s.nodes.map Prod.fst).toFinset.card := hcard
      _ ≤ (s.nodes.map Prod.fst).length := List.toFinset_card_le _
      _ = s.nodes.length := by simp
  · intro j hj
    simp only [Finset.mem_range] at hj
    obtain ⟨v, hv⟩ := Option.isSome_iff_exists.1
      (iterP_isSome_of_le s (j := j) (k := k) x (by omega) (by simp [hk]))
    have hpres : (mget s.nodes v).isSome := iterP_val_present s hk hj hv
    show (iterP s j x).getD 0 ∈ (s.nodes.map Prod.fst).toFinset
    rw [hv, Option.getD_some, List.mem_toFinset]
    exact mget_isSome_mem_keys _ _ hpres
  · intro i hi j hj hcon
    simp only [Finset.mem_coe, Finset.mem_range] at hi hj
    obtain ⟨vi, hvi⟩ := Option.isSome_iff_exists.1
      (iterP_isSome_of_le s (j := i) (k := k) x (by omega) (by simp [hk]))
    obtain ⟨vj, hvj⟩ := Option.isSome_iff_exists.1
      (iterP_isSome_of_le s (j := j) (k := k) x (by omega) (by simp [hk]))
    have hcon2 : (iterP s i x).getD 0 = (iterP s j x).getD 0 := hcon
    rw [hvi, hvj] at hcon2
    simp only [Option.getD_some] at hcon2
    by_contra hne
    rcases Nat.lt_or_ge i j with hlt | hge
    · exact hdist i j hlt hj (by rw [hvi, hvj, hcon2])
    · have hlt : j < i := by omega
      exact hdist j i hlt hi (by rw [hvi, hvj, hcon2])

/-! ## The ancestor walk versus the semantic chain -/

theorem walkF_hitId_sound (s : Nodes) (id : Uid) :
    ∀ f start, walkF s id f start = .hitId → ancReaches s start id := by
  intro f
  induction f with
  | zero => intro start h; simp [walkF] at h
  | succ f ih =>
    intro start h
    by_cases h1 : start = NO_PARENT_ID
    · simp [walkF, h1] at h
    · by_cases h2 : start = id
      · refine ⟨h2 ▸ h1, 0, by simp [iterP, h2], by omega⟩
      · simp only [walkF, if_neg h1, if_neg h2] at h
        cases hm : mget s.nodes start with
        | none => rw [hm] at h; simp at h
        | some nd =>
          rw [hm] at h
          obtain ⟨hid, k, hk, hpre⟩ := ih nd.parent_id h
          refine ⟨hid, k + 1, ?_, ?_⟩
          · show (match mget s.nodes start with
                  | none => none
                  | some nd => iterP s k nd.parent_id) = some id
            rw [hm]
            exact hk
          · intro j hj v hv
            cases j with
            | zero =>
              simp only [iterP, Option.some.injEq] at hv
              subst hv
              exact ⟨h1, h2⟩
            | succ j' =>
              have hv' : iterP s j' nd.parent_id = some v := by
                simp only [iterP, hm] at hv
                exact hv
              exact hpre j' (by omega) v hv'

theorem walkF_root_sound (s : Nodes) (id : Uid) :
    ∀ f start, walkF s id f start = .root → ancRoot s start id := by
  intro f
  induction f with
  | zero => intro start h; simp [walkF] at h
  | succ f ih =>
    intro start h
    by_cases h1 : start = NO_PARENT_ID
    · exact ⟨0, by simp [iterP, h1], by omega⟩
    · by_cases h2 : start = id
      · have h3 : ¬ id = NO_PARENT_ID := h2 ▸ h1
        simp [walkF, h1, h2, h3] at h
      · simp only [walkF, if_neg h1, if_neg h2] at h
        cases hm : mget s.nodes start with
        | none => rw [hm] at h; simp at h
        | some nd =>
          rw [hm] at h
          obtain ⟨k, hk, hpre⟩ := ih nd.parent_id h
          refine ⟨k + 1, ?_, ?_⟩
          · show (match mget s.nodes start with
                  | none => none
                  | some nd => iterP s k nd.parent_id) = some NO_PARENT_ID
            rw [hm]
            exact hk
          · intro j hj v hv
            cases j with
            | zero =>
              simp only [iterP, Option.some.injEq] at hv
              subst hv
              exact ⟨h1, h2⟩
            | succ j' =>
              have hv' : iterP s j' nd.parent_id = some v := by
                simp only [iterP, hm] at hv
                exact hv
              exact hpre j' (by omega) v hv'

theorem walkF_missing_sound (s : Nodes) (id : Uid) :
    ∀ f start, walkF s id f start = .missing → ancMissing s start id := by
  intro f
  induction f with
  | zero => intro start h; simp [walkF] at h
  | succ f ih =>
    intro start h
    by_cases h1 : start = NO_PARENT_ID
    · simp [walkF, h1] at h
    · by_cases h2 : start = id
      · have h3 : ¬ id = NO_PARENT_ID := h2 ▸ h1
        simp [walkF, h1, h2, h3] at h
      · simp only [walkF, if_neg h1, if_neg h2] at h
        cases hm : mget s.nodes start with
        | none =>
          refine ⟨0, start, by simp [iterP], hm, ?_⟩
          intro j hj u hu
          obtain rfl : j = 0 := Nat.le_zero.1 hj
          simp only [iterP, Option.some.injEq] at hu
          subst hu
          exact ⟨h1, h2⟩
        | some nd =>
          rw [hm] at h
          obtain ⟨k, v, hk, hgone, hpre⟩ := ih nd.parent_id h
          refine ⟨k + 1, v, ?_, hgone, ?_⟩
          · show (match mget s.nodes start with
                  | none => none
                  | some nd => iterP s k nd.parent_id) = some v
            rw [hm]
            exact hk
          · intro j hj u hu
            cases j with
            | zero =>
              simp only [iterP, Option.some.injEq] at hu
              subst hu
              exact ⟨h1, h2⟩
            | succ j' =>
              have hu' : iterP s j' nd.parent_id = some u := by
                simp only [iterP, hm] at hu
                exact hu
              exact hpre j' (by omega) u hu'

theorem walkF_hitId_complete (s : Nodes) (id : Uid) :
    ∀ k f start, k < f → iterP s k start = some id → id ≠ NO_PARENT_ID →
      (∀ j, j < k → ∀ v, iterP s j start = some v → v ≠ NO_PARENT_ID ∧ v ≠ id) →
      walkF s id f start = .hitId := by
  intro k
  induction k with
  | zero =>
    intro f start hf hk hid _
    simp only [iterP, Option.some.injEq] at hk
    subst hk
    obtain ⟨f', rfl⟩ : ∃ f', f = f' + 1 := ⟨f - 1, by omega⟩
    simp [walkF, hid]
  | succ k ih =>
    intro f start hf hk hid hpre
    obtain ⟨h1, h2⟩ := hpre 0 (by omega) start (by simp [iterP])
    obtain ⟨f', rfl⟩ : ∃ f', f = f' + 1 := ⟨f - 1, by omega⟩
    cases hm : mget s.nodes start with
    | none =>
      simp only [iterP, hm] at hk
      exact Option.noConfusion hk
    | some nd =>
      have hk' : iterP s k nd.parent_id = some id := by
        simp only [iterP, hm] at hk
        exact hk
      have hpre' : ∀ j, j < k → ∀ v, iterP s j nd.parent_id = some v →
          v ≠ NO_PARENT_ID ∧ v ≠ id := by
        intro j hj v hv
        refine hpre (j + 1) (by omega) v ?_
        simp only [iterP, hm]
        exact hv
      simp only [walkF, if_neg h1, if_neg h2, hm]
      exact ih f' nd.parent_id (by omega) hk' hid hpre'

theorem walkF_root_complete (s : Nodes) (id : Uid) :
    ∀ k f start, k < f → iterP s k start = some NO_PARENT_ID →
      (∀ j, j < k → ∀ v, iterP s j start = some v → v ≠ NO_PARENT_ID ∧ v ≠ id) →
      walkF s id f start = .root := by
  intro k
  induction k with
  | zero =>
    intro f start hf hk _
    simp only [iterP, Option.some.injEq] at hk
    subst hk
    obtain ⟨f', rfl⟩ : ∃ f', f = f' + 1 := ⟨f - 1, by omega⟩
    simp [walkF]
  | succ k ih =>
    intro f start hf hk hpre
    obtain ⟨h1, h2⟩ := hpre 0 (by omega) start (by simp [iterP])
    obtain ⟨f', rfl⟩ : ∃ f', f = f' + 1 := ⟨f - 1, by omega⟩
    cases hm : mget s.nodes start with
    | none =>
      simp only [iterP, hm] at hk
      exact Option.noConfusion hk
    | some nd =>
      have hk' : iterP s k nd.parent_id = some NO_PARENT_ID := by
        simp only [iterP, hm] at hk
        exact hk
      have hpre' : ∀ j, j < k → ∀ v, iterP s j nd.parent_id = some v →
          v ≠ NO_PARENT_ID ∧ v ≠ id := by
        intro j hj v hv
        refine hpre (j + 1) (by omega) v ?_
        simp only [iterP, hm]
        exact hv
      simp only [walkF, if_neg h1, if_neg h2, hm]
      exact ih f' nd.parent_id (by omega) hk' hpre'

theorem walkF_missing_complete (s : Nodes) (id : Uid) :
    ∀ k f start v, k < f → iterP s k start = some v → mget s.nodes v = none →
      (∀ j, j ≤ k → ∀ u, iterP s j start = some u → u ≠ NO_PARENT_ID ∧ u ≠ id) →
      walkF s id f start = .missing := by
  intro k
  induction k with
  | zero =>
    intro f start v hf hk hgone hpre
    simp only [iterP, Option.some.injEq] at hk
    subst hk
    obtain ⟨h1, h2⟩ := hpre 0 (by omega) start (by simp [iterP])
    obtain ⟨f', rfl⟩ : ∃ f', f = f' + 1 := ⟨f - 1, by omega⟩
    simp [walkF, h1, h2, hgone]
  | succ k ih =>
    intro f start v hf hk hgone hpre
    obtain ⟨h1, h2⟩ := hpre 0 (by omega) start (by simp [iterP])
    obtain ⟨f', rfl⟩ : ∃ f', f = f' + 1 := ⟨f - 1, by omega⟩
    cases hm : mget s.nodes start with
    | none =>
      simp only [iterP, hm] at hk
      exact Option.noConfusion hk
    | some nd =>
      have hk' : iterP s k nd.parent_id = some v := by
        simp only [iterP, hm] at hk
        exact hk
      have hpre' : ∀ j, j ≤ k → ∀ u, iterP s j nd.parent_id = some u →
          u ≠ NO_PARENT_ID ∧ u ≠ id := by
        intro j hj u hu
        refine hpre (j + 1) (by omega) u ?_
        simp only [iterP, hm]
        exact hu
      simp only [walkF, if_neg h1, if_neg h2, hm]
      exact ih f' nd.parent_id v (by omega) hk' hgone hpre'

/-- The walk, at the fuel `move_to` uses, returns `hitId` exactly on the
semantic "ancestor chain hits `id`" condition. -/
theorem walkF_hitId_iff (s : Nodes) (id np : Uid) :
    walkF s id (s.nodes.length + 1) np = .hitId ↔ ancReaches s np id := by
  constructor
  · exact walkF_hitId_sound s id _ np
  · rintro ⟨hid, k, hk, hpre⟩
    obtain ⟨k', hk'le, hk', hdist⟩ := exists_short_reach s np id k hk
    have hbound : k' ≤ s.nodes.length := short_reach_le s np id k' hk' hdist
    refine walkF_hitId_complete s id k' _ np (by omega) hk' hid ?_
    intro j hj v hv
    exact hpre j (by omega) v hv

theorem walkF_root_iff (s : Nodes) (id np : Uid) :
    walkF s id (s.nodes.length + 1) np = .root ↔ ancRoot s np id := by
  constructor
  · exact walkF_root_sound s id _ np
  · rintro ⟨k, hk, hpre⟩
    obtain ⟨k', hk'le, hk', hdist⟩ := exists_short_reach s np NO_PARENT_ID k hk
    have hbound : k' ≤ s.nodes.length := short_reach_le s np NO_PARENT_ID k' hk' hdist
    refine walkF_root_complete s id k' _ np (by omega) hk' ?_
    intro j hj v hv
    exact hpre j (by omega) v hv

theorem walkF_missing_iff (s : Nodes) (id np : Uid) :
    walkF s id (s.nodes.length + 1) np = .missing ↔ ancMissing s np id := by
  constructor
  · exact walkF_missing_sound s id _ np
  · rintro ⟨k, v, hk, hgone, hpre⟩
    obtain ⟨k', hk'le, hk', hdist⟩ := exists_short_reach s np v k hk
    have hbound : k' ≤ s.nodes.length := short_reach_le s np v k' hk' hdist
    refine walkF_missing_complete s id k' _ np v (by omega) hk' hgone ?_
    intro j hj u hu
    exact hpre j (by omega) u hu

/-! ## C1: the full characterization of `move_to` -/

theorem retainChild_bl_self (b : List (Uid × List Uid)) (p c : Uid) :
    ((mget (retainChild b p c) p).getD [])
      = ((mget b p).getD []).filter (fun e => decide (e ≠ c)) := by
  unfold retainChild
  cases hb : mget b p with
  | none => simp [hb]
  | some l => simp [mget_mput_self]

theorem retainChild_mget_ne (b : List (Uid × List Uid)) (p c q : Uid) (h : p ≠ q) :
    mget (retainChild b p c) q = mget b q := by
  unfold retainChild
  cases hb : mget b p with
  | none => rfl
  | some l => exact mget_mput_ne _ _ _ _ h

theorem ancRoot_start_ne (s : Nodes) {np id : Uid} (hnp : np ≠ NO_PARENT_ID)
    (h : ancRoot s np id) : np ≠ id := by
  obtain ⟨k, hk, hpre⟩ := h
  cases k with
  | zero =>
    simp only [iterP, Option.some.injEq] at hk
    exact absurd hk hnp
  | succ k =>
    exact (hpre 0 (by omega) np (by simp [iterP])).2

/-- C1 (amended). Full characterization of `move_to`, with the source's error
precedence made explicit: the walk verdict (`ancReaches` / `ancMissing` /
`ancRoot`) is decided first, then the same-parent and missing-node checks; on
success the node is reparented, removed entirely from its old parent's child
list, and appended to the new parent's list (so it occurs exactly once there
whenever it did not occur before, and its count grows by exactly one in
general). -/
theorem move_to_characterization (s : Nodes) (id np : Uid) (r : Except NodeError Unit)
    (s' : Nodes) (h : s.move_to id np = some (r, s')) :
    ((∃ e, r = .error e) → s' = s)
    ∧ (r = .error .NotAllowed ↔
        np = NO_PARENT_ID ∨ ancReaches s np id
        ∨ (ancRoot s np id ∧ ∃ nd, mget s.nodes id = some nd ∧ nd.parent_id = np))
    ∧ (np ≠ NO_PARENT_ID → (r = .error (.NotFound np) ↔ ancMissing s np id))
    ∧ (np ≠ NO_PARENT_ID → id ≠ np →
        (r = .error (.NotFound id) ↔ ancRoot s np id ∧ mget s.nodes id = none))
    ∧ (r = .ok () ↔
        np ≠ NO_PARENT_ID ∧ ancRoot s np id
        ∧ ∃ nd, mget s.nodes id = some nd ∧ nd.parent_id ≠ np)
    ∧ (∀ nd, r = .ok () → mget s.nodes id = some nd →
        mget s'.nodes id = some { nd with parent_id := np }
        ∧ (∀ x, x ≠ id → mget s'.nodes x = mget s.nodes x)
        ∧ ((mget s'.branches nd.parent_id).getD []
            = ((mget s.branches nd.parent_id).getD []).filter (fun e => decide (e ≠ id)))
        ∧ ((mget s'.branches np).getD [] = ((mget s.branches np).getD []) ++ [id])
        ∧ (∀ p, p ≠ nd.parent_id → p ≠ np → mget s'.branches p = mget s.branches p)
        ∧ id ∉ ((mget s'.branches nd.parent_id).getD [])
        ∧ ((mget s'.branches np).getD []).count id
            = ((mget s.branches np).getD []).count id + 1) := by
  by_cases hnp : np = NO_PARENT_ID
  · simp only [Nodes.move_to, if_pos hnp, Option.some.injEq, Prod.mk.injEq] at h
    obtain ⟨h1, h2⟩ := h
    subst h1
    subst h2
    refine ⟨fun _ => rfl, ?_, ?_, ?_, ?_, ?_⟩
    · simp [hnp]
    · intro hc; exact absurd hnp hc
    · intro hc; exact absurd hnp hc
    · constructor
      · intro hc; exact Except.noConfusion hc
      · rintro ⟨hc, -⟩; exact absurd hnp hc
    · intro nd hok; exact Except.noConfusion hok
  · cases hw : walkF s id (s.nodes.length + 1) np with
    | outOfFuel => simp [Nodes.move_to, if_neg hnp, hw] at h
    | hitId =>
      simp only [Nodes.move_to, if_neg hnp, hw, Option.some.injEq, Prod.mk.injEq] at h
      obtain ⟨h1, h2⟩ := h
      subst h1
      subst h2
      have hreach : ancReaches s np id := (walkF_hitId_iff s id np).1 hw
      refine ⟨fun _ => rfl, ?_, ?_, ?_, ?_, ?_⟩
      · simp [hreach]
      · intro _
        constructor
        · intro hc
          simp at hc
        · intro hmiss
          have := (walkF_missing_iff s id np).2 hmiss
          rw [hw] at this
          exact WalkRes.noConfusion this
      · intro _ _
        constructor
        · intro hc
          simp at hc
        · rintro ⟨hroot, -⟩
          have := (walkF_root_iff s id np).2 hroot
          rw [hw] at this
          exact WalkRes.noConfusion this
      · constructor
        · intro hc; exact Except.noConfusion hc
        · rintro ⟨-, hroot, -⟩
          have := (walkF_root_iff s id np).2 hroot
          rw [hw] at this
          exact WalkRes.noConfusion this
      · intro nd hok; exact Except.noConfusion hok
    | missing =>
      simp only [Nodes.move_to, if_neg hnp, hw, Option.some.injEq, Prod.mk.injEq] at h
      obtain ⟨h1, h2⟩ := h
      subst h1
      subst h2
      have hmiss : ancMissing s np id := (walkF_missing_iff s id np).1 hw
      refine ⟨fun _ => rfl, ?_, ?_, ?_, ?_, ?_⟩
      · constructor
        · intro hc; simp at hc
        · rintro (hc | hreach | ⟨hroot, -⟩)
          · exact absurd hc hnp
          · have := (walkF_hitId_iff s id np).2 hreach
            rw [hw] at this
            exact WalkRes.noConfusion this
          · have := (walkF_root_iff s id np).2 hroot
            rw [hw] at this
            exact WalkRes.noConfusion this
      · intro _
        simp [hmiss]
      · intro _ hne
        constructor
        · intro hc
          simp only [Except.error.injEq, NodeError.NotFound.injEq] at hc
          exact absurd hc.symm hne
        · rintro ⟨hroot, -⟩
          have := (walkF_root_iff s id np).2 hroot
          rw [hw] at this
          exact WalkRes.noConfusion this
      · constructor
        · intro hc; exact Except.noConfusion hc
        · rintro ⟨-, hroot, -⟩
          have := (walkF_root_iff s id np).2 hroot
          rw [hw] at this
          exact WalkRes.noConfusion this
      · intro nd hok; exact Except.noConfusion hok
    | root =>
      have hroot : ancRoot s np id := (walkF_root_iff s id np).1 hw
      have hne : np ≠ id := ancRoot_start_ne s hnp hroot
      cases hid : mget s.nodes id with
      | none =>
        simp only [Nodes.move_to, if_neg hnp, hw, hid, Option.some.injEq,
          Prod.mk.injEq] at h
        obtain ⟨h1, h2⟩ := h
        subst h1
        subst h2
        refine ⟨fun _ => rfl, ?_, ?_, ?_, ?_, ?_⟩
        · constructor
          · intro hc; simp at hc
          · rintro (hc | hreach | ⟨-, nd, hnd, -⟩)
            · exact absurd hc hnp
            · have := (walkF_hitId_iff s id np).2 hreach
              rw [hw] at this
              exact WalkRes.noConfusion this
            · exact Option.noConfusion hnd
        · intro _
          constructor
          · intro hc
            simp only [Except.error.injEq, NodeError.NotFound.injEq] at hc
            exact absurd hc (fun hx => hne hx.symm)
          · intro hmiss
            have := (walkF_missing_iff s id np).2 hmiss
            rw [hw] at this
            exact WalkRes.noConfusion this
        · intro _ _
          simp [hroot, hid]
        · constructor
          · intro hc; exact Except.noConfusion hc
          · rintro ⟨-, -, nd, hnd, -⟩
            exact Option.noConfusion hnd
        · intro nd hok; exact Except.noConfusion hok
      | some nd =>
        by_cases hpar : nd.parent_id = np
        · simp only [Nodes.move_to, if_neg hnp, hw, hid, if_pos hpar, Option.some.injEq,
            Prod.mk.injEq] at h
          obtain ⟨h1, h2⟩ := h
          subst h1
          subst h2
          refine ⟨fun _ => rfl, ?_, ?_, ?_, ?_, ?_⟩
          · constructor
            · intro _
              exact Or.inr (Or.inr ⟨hroot, nd, rfl, hpar⟩)
            · intro _; rfl
          · intro _
            constructor
            · intro hc; simp at hc
            · intro hmiss
              have := (walkF_missing_iff s id np).2 hmiss
              rw [hw] at this
              exact WalkRes.noConfusion this
          · intro _ _
            constructor
            · intro hc; simp at hc
            · rintro ⟨-, hgone⟩
              exact Option.noConfusion hgone
          · constructor
            · intro hc; exact Except.noConfusion hc
            · rintro ⟨-, -, nd', hnd', hpar'⟩
              obtain rfl := Option.some.inj hnd'
              exact absurd hpar hpar'
          · intro nd' hok; exact Except.noConfusion hok
        · simp only [Nodes.move_to, if_neg hnp, hw, hid, if_neg hpar, Option.some.injEq,
            Prod.mk.injEq] at h
          obtain ⟨h1, h2⟩ := h
          subst h1
          refine ⟨?_, ?_, ?_, ?_, ?_, ?_⟩
          · rintro ⟨e, he⟩; exact Except.noConfusion he
          · constructor
            · intro hc; exact Except.noConfusion hc
            · rintro (hc | hreach | ⟨-, nd', hnd', hpar'⟩)
              · exact absurd hc hnp
              · have := (walkF_hitId_iff s id np).2 hreach
                rw [hw] at this
                exact WalkRes.noConfusion this
              · obtain rfl := Option.some.inj hnd'
                exact absurd hpar' hpar
          · intro _
            constructor
            · intro hc; exact Except.noConfusion hc
            · intro hmiss
              have := (walkF_missing_iff s id np).2 hmiss
              rw [hw] at this
              exact WalkRes.noConfusion this
          · intro _ _
            constructor
            · intro hc; exact Except.noConfusion hc
            · rintro ⟨-, hgone⟩
              exact Option.noConfusion hgone
          · constructor
            · intro _
              exact ⟨hnp, hroot, nd, rfl, hpar⟩
            · intro _; rfl
          · intro nd' _ hnd'
            obtain rfl := Option.some.inj hnd'
            subst h2
            refine ⟨?_, ?_, ?_, ?_, ?_, ?_, ?_⟩
            · exact mget_mput_self _ _ _
            · intro x hx
              exact mget_mput_ne _ _ _ _ (fun hip => hx hip.symm)
            · rw [mget_mput_ne _ _ _ _ (fun hq => hpar hq.symm)]
              exact retainChild_bl_self _ _ _
            · rw [mget_mput_self, retainChild_mget_ne _ _ _ _ hpar]
              simp
            · intro p hp1 hp2
              rw [mget_mput_ne _ _ _ _ (fun hq => hp2 hq.symm)]
              exact retainChild_mget_ne _ _ _ _ (fun hq => hp1 hq.symm)
            · rw [mget_mput_ne _ _ _ _ (fun hq => hpar hq.symm),
                retainChild_bl_self]
              simp
            · rw [mget_mput_self, retainChild_mget_ne _ _ _ _ hpar]
              simp

/-- C1 counterexample to the claim as stated. In the store `1 ↦ parent 2`,
`2 ↦ parent 3` with `3` absent, the call `move_to(1, 2)` satisfies the claim's
`NotAllowed` condition "`id`'s current `parent_id` equals `new_parent`", yet the
result is `NotFound(2)`: the ancestor walk's missing-node rejection fires
before the same-parent check is ever reached. -/
theorem move_to_notfound_overrides_notallowed :
    c1Store.move_to 1 2 = some (.error (.NotFound 2), c1Store)
    ∧ (mget c1Store.nodes 1).map (fun nd => nd.parent_id) = some 2
    ∧ (Except.error (NodeError.NotFound 2) : Except NodeError Unit)
        ≠ .error .NotAllowed := by
  refine ⟨by decide, by decide, by decide⟩

/-- Witness for C1: a successful move on a concrete well-formed tree. -/
theorem move_to_characterization_witness :
    c1WitStore.move_to 1 2 = some (c1MoveRes.1, c1MoveRes.2)
    ∧ (c1MoveRes.1 = .ok () ↔
        (2 : Uid) ≠ NO_PARENT_ID ∧ ancRoot c1WitStore 2 1
        ∧ ∃ nd, mget c1WitStore.nodes 1 = some nd ∧ nd.parent_id ≠ 2) :=
  ⟨by decide
  , (move_to_characterization c1WitStore 1 2 c1MoveRes.1 c1MoveRes.2
      (by decide)).2.2.2.2.1⟩

/-! ## Fuel sufficiency and general facts about `delete` -/

theorem mdel_length_le {κ α : Type} [DecidableEq κ] (m : List (κ × α)) (k : κ) :
    (mdel m k).length ≤ m.length := by
  induction m with
  | nil => simp [mdel]
  | cons hd tl ih =>
    obtain ⟨k', v⟩ := hd
    by_cases h : k' = k <;> simp [mdel, h] <;> omega

theorem mdel_length_lt {κ α : Type} [DecidableEq κ] (m : List (κ × α)) (k : κ)
    (h : (mget m k).isSome) : (mdel m k).length < m.length := by
  induction m with
  | nil => simp [mget] at h
  | cons hd tl ih =>
    obtain ⟨k', v⟩ := hd
    by_cases hk : k' = k
    · simp only [mdel, if_pos hk, List.length_cons]
      have := mdel_length_le tl k
      omega
    · simp only [mget, if_neg hk] at h
      simp only [mdel, if_neg hk, List.length_cons]
      have := ih h
      omega

theorem branchSum_cons (q : Uid) (v : List Uid) (tl : List (Uid × List Uid)) :
    branchSum ((q, v) :: tl) = v.length + branchSum tl := rfl

theorem branchSum_mput (b : List (Uid × List Uid)) (p : Uid) (l : List Uid) :
    branchSum (mput b p l) + ((mget b p).getD []).length
      = branchSum b + l.length := by
  induction b with
  | nil => simp [mput, mget, branchSum]
  | cons hd tl ih =>
    obtain ⟨q, v⟩ := hd
    by_cases h : q = p
    · simp only [mput, if_pos h, mget, branchSum_cons, Option.getD_some]
      omega
    · simp only [mput, if_neg h, mget, branchSum_cons]
      omega

theorem branchSum_retainChild_le (b : List (Uid × List Uid)) (p c : Uid) :
    branchSum (retainChild b p c) ≤ branchSum b := by
  unfold retainChild
  cases hb : mget b p with
  | none => exact le_refl _
  | some l =>
    show branchSum (mput b p (l.filter (fun e => decide (e ≠ c)))) ≤ branchSum b
    have h1 := branchSum_mput b p (l.filter (fun e => decide (e ≠ c)))
    have h2 : (l.filter (fun e => decide (e ≠ c))).length ≤ l.length :=
      List.length_filter_le _ _
    rw [hb] at h1
    simp only [Option.getD_some] at h1
    omega

theorem branchSum_mdel_le (b : List (Uid × List Uid)) (k : Uid) :
    branchSum (mdel b k) ≤ branchSum b := by
  induction b with
  | nil => simp [mdel]
  | cons hd tl ih =>
    obtain ⟨q, v⟩ := hd
    by_cases h : q = k
    · simp only [mdel, if_pos h, branchSum_cons]
      omega
    · simp only [mdel, if_neg h, branchSum_cons]
      omega

theorem branchSum_mdel_add (b : List (Uid × List Uid)) (k : Uid) :
    branchSum (mdel b k) + ((mget b k).getD []).length ≤ branchSum b := by
  induction b with
  | nil => simp [mdel, mget, branchSum]
  | cons hd tl ih =>
    obtain ⟨q, v⟩ := hd
    by_cases h : q = k
    · simp only [mdel, if_pos h, mget, branchSum_cons, Option.getD_some]
      have := branchSum_mdel_le tl k
      omega
    · simp only [mdel, if_neg h, mget, branchSum_cons]
      omega

theorem deleteGoF_isSome : ∀ f (s : Nodes) (ws : List Uid),
    potential s ws < f → (deleteGoF f s ws).isSome := by
  intro f
  induction f with
  | zero => intro s ws h; simp [potential] at h
  | succ f ih =>
    intro s ws h
    cases ws with
    | nil => simp [deleteGoF]
    | cons id rest =>
      cases hm : mget s.nodes id with
      | none =>
        simp only [deleteGoF, hm]
        refine ih s rest ?_
        simp only [potential, List.length_cons] at h ⊢
        omega
      | some node =>
        have hlt := mdel_length_lt s.nodes id (by simp [hm])
        have hret := branchSum_retainChild_le s.branches node.parent_id id
        cases hb : mget (retainChild s.branches node.parent_id id) id with
        | none =>
          simp only [deleteGoF, hm, hb, Option.isSome_map']
          refine ih _ rest ?_
          simp only [potential, List.length_cons] at h ⊢
          omega
        | some children =>
          simp only [deleteGoF, hm, hb, Option.isSome_map']
          refine ih _ (children ++ rest) ?_
          have hdel := branchSum_mdel_add (retainChild s.branches node.parent_id id) id
          rw [hb] at hdel
          simp only [Option.getD_some] at hdel
          simp only [potential, List.length_cons, List.length_append] at h ⊢
          omega

theorem delete_eq_deleteGoF (s : Nodes) (id : Uid) :
    deleteGoF (potential s [id] + 1) s [id] = some (Nodes.delete s id) := by
  have h := deleteGoF_isSome (potential s [id] + 1) s [id] (by omega)
  obtain ⟨r, hr⟩ := Option.isSome_iff_exists.1 h
  rw [Nodes.delete, hr]
  simp

theorem deleteGoF_nodes_subset : ∀ f (s : Nodes) (ws : List Uid) (s' : Nodes) (L : List Uid),
    deleteGoF f s ws = some (s', L) →
    ∀ x v, mget s'.nodes x = some v → mget s.nodes x = some v := by
  intro f
  induction f with
  | zero => intro s ws s' L h; simp [deleteGoF] at h
  | succ f ih =>
    intro s ws s' L h x v hx
    cases ws with
    | nil =>
      simp only [deleteGoF, Option.some.injEq, Prod.mk.injEq] at h
      rw [h.1]
      exact hx
    | cons id rest =>
      cases hm : mget s.nodes id with
      | none =>
        simp only [deleteGoF, hm] at h
        exact ih s rest s' L h x v hx
      | some node =>
        by_cases hxi : x = id
        · subst hxi
          exfalso
          cases hb : mget (retainChild s.branches node.parent_id x) x with
          | none =>
            simp only [deleteGoF, hm, hb] at h
            obtain ⟨r, hr, hgr⟩ := Option.map_eq_some'.1 h
            have h1 : r.1 = s' := congrArg Prod.fst hgr
            have hsub := ih _ rest r.1 r.2 hr x v (by rw [h1]; exact hx)
            simp [mget_mdel_self] at hsub
          | some children =>
            simp only [deleteGoF, hm, hb] at h
            obtain ⟨r, hr, hgr⟩ := Option.map_eq_some'.1 h
            have h1 : r.1 = s' := congrArg Prod.fst hgr
            have hsub := ih _ (children ++ rest) r.1 r.2 hr x v (by rw [h1]; exact hx)
            simp [mget_mdel_self] at hsub
        · have hne : id ≠ x := fun hh => hxi hh.symm
          cases hb : mget (retainChild s.branches node.parent_id id) id with
          | none =>
            simp only [deleteGoF, hm, hb] at h
            obtain ⟨r, hr, hgr⟩ := Option.map_eq_some'.1 h
            have h1 : r.1 = s' := congrArg Prod.fst hgr
            have hsub := ih _ rest r.1 r.2 hr x v (by rw [h1]; exact hx)
            simp only [mget_mdel_ne s.nodes id x hne] at hsub
            exact hsub
          | some children =>
            simp only [deleteGoF, hm, hb] at h
            obtain ⟨r, hr, hgr⟩ := Option.map_eq_some'.1 h
            have h1 : r.1 = s' := congrArg Prod.fst hgr
            have hsub := ih _ (children ++ rest) r.1 r.2 hr x v (by rw [h1]; exact hx)
            simp only [mget_mdel_ne s.nodes id x hne] at hsub
            exact hsub

theorem deleteGoF_ws_gone : ∀ f (s : Nodes) (ws : List Uid) (s' : Nodes) (L : List Uid),
    deleteGoF f s ws = some (s', L) →
    ∀ x, x ∈ ws → mget s'.nodes x = none := by
  intro f
  induction f with
  | zero => intro s ws s' L h; simp [deleteGoF] at h
  | succ f ih =>
    intro s ws s' L h x hxw
    cases ws with
    | nil => simp at hxw
    | cons id rest =>
      cases hm : mget s.nodes id with
      | none =>
        simp only [deleteGoF, hm] at h
        rcases List.mem_cons.1 hxw with rfl | hxr
        · cases hg : mget s'.nodes x with
          | none => rfl
          | some v =>
            have := deleteGoF_nodes_subset f s rest s' L h x v hg
            rw [hm] at this
            exact Option.noConfusion this
        · exact ih s rest s' L h x hxr
      | some node =>
        cases hb : mget (retainChild s.branches node.parent_id id) id with
        | none =>
          simp only [deleteGoF, hm, hb] at h
          obtain ⟨r, hr, hgr⟩ := Option.map_eq_some'.1 h
          have h1 : r.1 = s' := congrArg Prod.fst hgr
          rcases List.mem_cons.1 hxw with rfl | hxr
          · cases hg : mget s'.nodes x with
            | none => rfl
            | some v =>
              have := deleteGoF_nodes_subset f _ rest r.1 r.2 hr x v (by rw [h1]; exact hg)
              simp [mget_mdel_self] at this
          · rw [← h1]
            exact ih _ rest r.1 r.2 hr x hxr
        | some children =>
          simp only [deleteGoF, hm, hb] at h
          obtain ⟨r, hr, hgr⟩ := Option.map_eq_some'.1 h
          have h1 : r.1 = s' := congrArg Prod.fst hgr
          rcases List.mem_cons.1 hxw with rfl | hxr
          · cases hg : mget s'.nodes x with
            | none => rfl
            | some v =>
              have := deleteGoF_nodes_subset f _ (children ++ rest) r.1 r.2 hr x v
                (by rw [h1]; exact hg)
              simp [mget_mdel_self] at this
          · rw [← h1]
            exact ih _ (children ++ rest) r.1 r.2 hr x (by simp [hxr])

theorem delete_absent (s : Nodes) (id : Uid) (h : mget s.nodes id = none) :
    Nodes.delete s id = (s, []) := by
  have h1 := delete_eq_deleteGoF s id
  have h2 : deleteGoF (potential s [id] + 1) s [id]
      = deleteGoF (potential s [id]) s [] := by
    simp only [deleteGoF, h]
  rw [h2] at h1
  have h3 : potential s [id] = (potential s [id] - 1) + 1 := by
    simp only [potential, List.length_cons]
    omega
  rw [h3] at h1
  simp only [deleteGoF, Option.some.injEq] at h1
  exact h1.symm

theorem delete_gone (s : Nodes) (id : Uid) :
    mget (Nodes.delete s id).1.nodes id = none := by
  have h1 := delete_eq_deleteGoF s id
  exact deleteGoF_ws_gone _ s [id] (Nodes.delete s id).1 (Nodes.delete s id).2
    (by rw [h1]) id (by simp)

theorem delete_twice (s : Nodes) (id : Uid) :
    Nodes.delete (Nodes.delete s id).1 id = ((Nodes.delete s id).1, []) :=
  delete_absent _ _ (delete_gone s id)

/-! ## Structure of well-formed stores -/

theorem retainChild_mget_self (b : List (Uid × List Uid)) (p c : Uid) :
    mget (retainChild b p c) p
      = (mget b p).map (List.filter (fun e => decide (e ≠ c))) := by
  unfold retainChild
  cases hb : mget b p with
  | none => simp [hb]
  | some l => simp [mget_mput_self]

theorem branch_mem_iff (σ : Nodes) (hinv : StoreInv σ) (p e : Uid) :
    e ∈ ((mget σ.branches p).getD []) ↔
      ∃ m, mget σ.nodes e = some m ∧ m.parent_id = p := by
  have hc := hinv.branchCount p e
  constructor
  · intro hmem
    have hpos : ((mget σ.branches p).getD []).count e ≠ 0 := by
      simp [List.count_eq_zero]
      exact hmem
    rw [hc] at hpos
    cases hm : mget σ.nodes e with
    | none => rw [hm] at hpos; simp at hpos
    | some m =>
      rw [hm] at hpos
      by_cases hp : m.parent_id = p
      · exact ⟨m, rfl, hp⟩
      · simp [hp] at hpos
  · rintro ⟨m, hm, hp⟩
    have h1 : ((mget σ.branches p).getD []).count e = 1 := by
      rw [hc, hm]
      simp [hp]
    by_contra habs
    rw [List.count_eq_zero.2 habs] at h1
    exact absurd h1 (by omega)

theorem branch_nodup (σ : Nodes) (hinv : StoreInv σ) (p : Uid) :
    ((mget σ.branches p).getD []).Nodup := by
  rw [List.nodup_iff_count_le_one]
  intro e
  rw [hinv.branchCount p e]
  cases mget σ.nodes e with
  | none => simp
  | some m => by_cases hp : m.parent_id = p <;> simp [hp]

theorem desc_self (σ : Nodes) (x : Uid) (h : (mget σ.nodes x).isSome) : Desc σ x x :=
  ⟨h, 0, rfl⟩

theorem desc_up (σ : Nodes) {e c : Uid} {m : LockedNode}
    (hm : mget σ.nodes e = some m) (hc : m.parent_id = c) :
    ∀ x, Desc σ e x → Desc σ c x := by
  rintro x ⟨hx, k, hk⟩
  refine ⟨hx, k + 1, ?_⟩
  rw [iterP_add σ k 1 x, hk]
  simp [iterP_one, hm, hc]

theorem child_desc (σ : Nodes) {e c : Uid} {m : LockedNode}
    (hm : mget σ.nodes e = some m) (hc : m.parent_id = c) : Desc σ c e := by
  refine ⟨by simp [hm], 1, ?_⟩
  simp [iterP_one, hm, hc]

theorem child_not_desc (σ : Nodes) (hinv : StoreInv σ) {e c : Uid} {m : LockedNode}
    (hm : mget σ.nodes e = some m) (hc : m.parent_id = c) : ¬ Desc σ e c := by
  rintro ⟨hcp, k, hk⟩
  have h1 : iterP σ 1 e = some c := by simp [iterP_one, hm, hc]
  have : iterP σ (k + 1) c = some c := by
    rw [iterP_add σ k 1 c, hk]
    simpa using h1
  exact hinv.acyclic c k this

theorem desc_down_split (σ : Nodes) {c x : Uid} (hd : Desc σ c x) (hne : x ≠ c) :
    ∃ e m, mget σ.nodes e = some m ∧ m.parent_id = c ∧ Desc σ e x := by
  obtain ⟨hx, k, hk⟩ := hd
  cases k with
  | zero =>
    simp only [iterP, Option.some.injEq] at hk
    exact absurd hk hne
  | succ k =>
    obtain ⟨e, he⟩ := Option.isSome_iff_exists.1
      (iterP_isSome_of_le σ (j := k) (k := k + 1) x (by omega) (by simp [hk]))
    obtain ⟨m, hm⟩ := Option.isSome_iff_exists.1 (iterP_val_present σ hk (by omega) he)
    have hpc : m.parent_id = c := by
      rw [iterP_add σ k 1 x, he] at hk
      simp only [Option.some_bind] at hk
      rw [iterP_one] at hk
      simp [hm] at hk
      exact hk
    exact ⟨e, m, hm, hpc, hx, k, he⟩

theorem siblings_desc_disjoint (σ : Nodes) (hinv : StoreInv σ) {e1 e2 c : Uid}
    {m1 m2 : LockedNode}
    (h1 : mget σ.nodes e1 = some m1) (hc1 : m1.parent_id = c)
    (h2 : mget σ.nodes e2 = some m2) (hc2 : m2.parent_id = c)
    (hne : e1 ≠ e2) : ∀ x, Desc σ e1 x → ¬ Desc σ e2 x := by
  rintro x ⟨hx, k1, hk1⟩ ⟨-, k2, hk2⟩
  rcases Nat.le_total k1 k2 with hle | hle
  · obtain ⟨d, rfl⟩ : ∃ d, k2 = k1 + d := ⟨k2 - k1, by omega⟩
    rw [iterP_add σ k1 d x, hk1] at hk2
    simp only [Option.some_bind] at hk2
    cases d with
    | zero =>
      simp only [iterP, Option.some.injEq] at hk2
      exact hne hk2
    | succ d =>
      have hstep : iterP σ (1 + d) e1 = some e2 := by
        rw [Nat.add_comm 1 d]
        exact hk2
      rw [iterP_add σ 1 d e1, iterP_one] at hstep
      simp [h1, hc1] at hstep
      have : iterP σ (d + 1) c = some c := by
        rw [iterP_add σ d 1 c, hstep]
        simp [iterP_one, h2, hc2]
      exact hinv.acyclic c d this
  · obtain ⟨d, rfl⟩ : ∃ d, k1 = k2 + d := ⟨k1 - k2, by omega⟩
    rw [iterP_add σ k2 d x, hk2] at hk1
    simp only [Option.some_bind] at hk1
    cases d with
    | zero =>
      simp only [iterP, Option.some.injEq] at hk1
      exact hne hk1.symm
    | succ d =>
      have hstep : iterP σ (1 + d) e2 = some e1 := by
        rw [Nat.add_comm 1 d]
        exact hk1
      rw [iterP_add σ 1 d e2, iterP_one] at hstep
      simp [h2, hc2] at hstep
      have : iterP σ (d + 1) c = some c := by
        rw [iterP_add σ d 1 c, hstep]
        simp [iterP_one, h1, hc1]
      exact hinv.acyclic c d this

theorem filter_mem_congr (A B : List Uid) (h : ∀ x, x ∈ A ↔ x ∈ B) (l : List Uid) :
    l.filter (fun e => decide (e ∉ A)) = l.filter (fun e => decide (e ∉ B)) := by
  refine List.filter_congr ?_
  intro a _
  simp [h a]

/-! ## The delete traversal against the pristine branches index -/

theorem deleteGo_sim (σ : Nodes) (hinv : StoreInv σ) :
    ∀ f (V : List Uid) (s : Nodes) (ws : List Uid) (s' : Nodes) (L : List Uid),
    (∀ x, mget s.nodes x = if x ∈ V then none else mget σ.nodes x) →
    (∀ p, p ∉ V → mget s.branches p
        = (mget σ.branches p).map (List.filter (fun e => decide (e ∉ V)))) →
    (∀ p, p ∈ V → mget s.branches p = none) →
    (∀ w, w ∈ ws → (mget σ.nodes w).isSome) →
    (∀ w, w ∈ ws → ∀ x, Desc σ w x → x ∉ V) →
    List.Pairwise (fun w1 w2 => ∀ x, Desc σ w1 x → ¬ Desc σ w2 x) ws →
    deleteGoF f s ws = some (s', L) →
    specGoF σ f ws = some L
    ∧ (∀ x, mget s'.nodes x = if x ∈ V ++ L then none else mget σ.nodes x)
    ∧ (∀ p, p ∉ V ++ L → mget s'.branches p
        = (mget σ.branches p).map (List.filter (fun e => decide (e ∉ V ++ L))))
    ∧ (∀ p, p ∈ V ++ L → mget s'.branches p = none)
    ∧ (∀ x, x ∈ L ↔ ∃ w, w ∈ ws ∧ Desc σ w x) := by
  intro f
  induction f with
  | zero => intro V s ws s' L _ _ _ _ _ _ h; simp [deleteGoF] at h
  | succ f ih =>
    intro V s ws s' L H1 H2a H2b H3a H3b H3c h
    cases ws with
    | nil =>
      simp only [deleteGoF, Option.some.injEq, Prod.mk.injEq] at h
      obtain ⟨rfl, rfl⟩ := h
      refine ⟨by simp [specGoF], ?_, ?_, ?_, ?_⟩
      · simpa using H1
      · simpa using H2a
      · simpa using H2b
      · simp
    | cons c rest =>
      obtain ⟨cnode, hcσ⟩ := Option.isSome_iff_exists.1 (H3a c (by simp))
      have hcV : c ∉ V := H3b c (by simp) c (desc_self σ c (by simp [hcσ]))
      have hmc : mget s.nodes c = some cnode := by
        rw [H1 c, if_neg hcV, hcσ]
      have hpc : cnode.parent_id ≠ c := by
        intro he
        have h1 : iterP σ 1 c = some c := by
          rw [iterP_one, hcσ]
          simp [he]
        exact hinv.acyclic c 0 h1
      have hretc : mget (retainChild s.branches cnode.parent_id c) c
          = mget s.branches c := retainChild_mget_ne _ _ _ _ hpc
      have hsbc : mget s.branches c
          = (mget σ.branches c).map (List.filter (fun e => decide (e ∉ V))) := H2a c hcV
      have hH1' : ∀ x, mget (mdel s.nodes c) x
          = if x ∈ V ++ [c] then none else mget σ.nodes x := by
        intro x
        by_cases hxc : x = c
        · subst hxc
          simp [mget_mdel_self]
        · rw [mget_mdel_ne _ _ _ (fun hh => hxc hh.symm), H1 x]
          by_cases hv : x ∈ V <;> simp [hv, hxc]
      have hretH2a : ∀ p, p ∉ V ++ [c] →
          mget (retainChild s.branches cnode.parent_id c) p
            = (mget σ.branches p).map (List.filter (fun e => decide (e ∉ V ++ [c]))) := by
        intro p hp
        have hpV : p ∉ V := fun hx => hp (by simp [hx])
        have hpcne : p ≠ c := fun hx => hp (by simp [hx])
        by_cases hpp : p = cnode.parent_id
        · subst hpp
          rw [retainChild_mget_self, H2a _ hpV]
          cases hσ : mget σ.branches cnode.parent_id with
          | none => simp
          | some l =>
            simp only [Option.map_some']
            congr 1
            rw [List.filter_filter]
            refine List.filter_congr ?_
            intro a _
            by_cases h1 : a ∈ V <;> by_cases h2 : a = c <;> simp [h1, h2]
        · rw [retainChild_mget_ne _ _ _ _ (fun hh => hpp hh.symm), H2a p hpV]
          have hcnot : c ∉ ((mget σ.branches p).getD []) := by
            rw [branch_mem_iff σ hinv]
            rintro ⟨m, hm, hmp⟩
            rw [hcσ] at hm
            obtain rfl := Option.some.inj hm
            exact hpp hmp.symm
          cases hσ : mget σ.branches p with
          | none => simp
          | some l =>
            rw [hσ] at hcnot
            simp only [Option.getD_some] at hcnot
            simp only [Option.map_some']
            congr 1
            refine List.filter_congr ?_
            intro a ha
            have hac : a ≠ c := fun hh => hcnot (hh ▸ ha)
            by_cases h1 : a ∈ V <;> simp [h1, hac]
      have hretH2b : ∀ p, p ∈ V →
          mget (retainChild s.branches cnode.parent_id c) p = none := by
        intro p hp
        by_cases hpp : p = cnode.parent_id
        · subst hpp
          rw [retainChild_mget_self, H2b _ hp]
          rfl
        · rw [retainChild_mget_ne _ _ _ _ (fun hh => hpp hh.symm)]
          exact H2b p hp
      have hheadrel : ∀ w ∈ rest, ∀ x, Desc σ c x → ¬ Desc σ w x :=
        (List.pairwise_cons.1 H3c).1
      have hH3b' : ∀ w, w ∈ rest → ∀ x, Desc σ w x → x ∉ V ++ [c] := by
        intro w hw x hd hx
        rcases List.mem_append.1 hx with hx | hx
        · exact H3b w (by simp [hw]) x hd hx
        · obtain rfl := List.mem_singleton.1 hx
          exact hheadrel w hw x (desc_self σ x (by simp [hcσ])) hd
      cases hb : mget (retainChild s.branches cnode.parent_id c) c with
      | none =>
        have hσc : (mget σ.branches c).map (List.filter (fun e => decide (e ∉ V)))
            = none := by
          rw [← hsbc, ← hretc]
          exact hb
        have hσcn : mget σ.branches c = none := by
          cases hq : mget σ.branches c
          · rfl
          · rw [hq] at hσc
            simp at hσc
        simp only [deleteGoF, hmc, hb] at h
        obtain ⟨r, hr, hgr⟩ := Option.map_eq_some'.1 h
        obtain ⟨hr1, hr2⟩ : r.1 = s' ∧ c :: r.2 = L :=
          ⟨congrArg Prod.fst hgr, congrArg Prod.snd hgr⟩
        subst hr1
        subst hr2
        have hH2b'' : ∀ p, p ∈ V ++ [c] →
            mget (retainChild s.branches cnode.parent_id c) p = none := by
          intro p hp
          rcases List.mem_append.1 hp with hp | hp
          · exact hretH2b p hp
          · obtain rfl := List.mem_singleton.1 hp
            exact hb
        obtain ⟨hspec, hf1, hf2a, hf2b, hmem⟩ :=
          ih (V ++ [c]) ⟨retainChild s.branches cnode.parent_id c, mdel s.nodes c⟩
            rest r.1 r.2 hH1' hretH2a hH2b''
            (fun w hw => H3a w (by simp [hw])) hH3b'
            (List.pairwise_cons.1 H3c).2 hr
        have hVL : (V ++ [c]) ++ r.2 = V ++ c :: r.2 := by simp
        rw [hVL] at hf1 hf2a hf2b
        refine ⟨?_, hf1, hf2a, hf2b, ?_⟩
        · simp [specGoF, hcσ, hσcn, hspec]
        · intro x
          constructor
          · intro hx
            rcases List.mem_cons.1 hx with rfl | hx
            · exact ⟨x, by simp, desc_self σ x (by simp [hcσ])⟩
            · obtain ⟨w, hw, hd⟩ := (hmem x).1 hx
              exact ⟨w, by simp [hw], hd⟩
          · rintro ⟨w, hw, hd⟩
            rcases List.mem_cons.1 hw with rfl | hw
            · by_cases hxc : x = w
              · simp [hxc]
              · obtain ⟨e, m, hm, hmp, hde⟩ := desc_down_split σ hd hxc
                have : e ∈ (mget σ.branches w).getD [] :=
                  (branch_mem_iff σ hinv w e).2 ⟨m, hm, hmp⟩
                rw [hσcn] at this
                simp at this
            · exact List.mem_cons_of_mem _ ((hmem x).2 ⟨w, hw, hd⟩)
      | some children =>
        have hmapc : (mget σ.branches c).map (List.filter (fun e => decide (e ∉ V)))
            = some children := by
          rw [← hsbc, ← hretc]
          exact hb
        obtain ⟨l, hσl, hfl⟩ := Option.map_eq_some'.1 hmapc
        have hlmem : ∀ e ∈ l, ∃ m, mget σ.nodes e = some m ∧ m.parent_id = c := by
          intro e he
          have hegd : e ∈ (mget σ.branches c).getD [] := by
            rw [hσl]
            simpa using he
          exact (branch_mem_iff σ hinv c e).1 hegd
        have hchil : children = l := by
          rw [← hfl]
          refine List.filter_eq_self.2 ?_
          intro a ha
          obtain ⟨m, hm, hmp⟩ := hlmem a ha
          simp [H3b c (by simp) a (child_desc σ hm hmp)]
        subst hchil
        simp only [deleteGoF, hmc, hb] at h
        obtain ⟨r, hr, hgr⟩ := Option.map_eq_some'.1 h
        obtain ⟨hr1, hr2⟩ : r.1 = s' ∧ c :: r.2 = L :=
          ⟨congrArg Prod.fst hgr, congrArg Prod.snd hgr⟩
        subst hr1
        subst hr2
        have hs2H2a : ∀ p, p ∉ V ++ [c] →
            mget (mdel (retainChild s.branches cnode.parent_id c) c) p
              = (mget σ.branches p).map (List.filter (fun e => decide (e ∉ V ++ [c]))) := by
          intro p hp
          have hpcne : c ≠ p := fun hx => hp (by simp [hx.symm])
          rw [mget_mdel_ne _ _ _ hpcne]
          exact hretH2a p hp
        have hs2H2b : ∀ p, p ∈ V ++ [c] →
            mget (mdel (retainChild s.branches cnode.parent_id c) c) p = none := by
          intro p hp
          rcases List.mem_append.1 hp with hp | hp
          · have hpcne : c ≠ p := fun hx => hcV (hx ▸ hp)
            rw [mget_mdel_ne _ _ _ hpcne]
            exact hretH2b p hp
          · obtain rfl := List.mem_singleton.1 hp
            exact mget_mdel_self _ _
        have hH3a2 : ∀ w, w ∈ children ++ rest → (mget σ.nodes w).isSome := by
          intro w hw
          rcases List.mem_append.1 hw with hw | hw
          · obtain ⟨m, hm, -⟩ := hlmem w hw
            simp [hm]
          · exact H3a w (by simp [hw])
        have hH3b2 : ∀ w, w ∈ children ++ rest → ∀ x, Desc σ w x → x ∉ V ++ [c] := by
          intro w hw x hd hx
          rcases List.mem_append.1 hw with hw | hw
          · obtain ⟨m, hm, hmp⟩ := hlmem w hw
            have hdc : Desc σ c x := desc_up σ hm hmp x hd
            rcases List.mem_append.1 hx with hx | hx
            · exact H3b c (by simp) x hdc hx
            · obtain rfl := List.mem_singleton.1 hx
              exact child_not_desc σ hinv hm hmp hd
          · exact hH3b' w hw x hd hx
        have hH3c2 : List.Pairwise (fun w1 w2 => ∀ x, Desc σ w1 x → ¬ Desc σ w2 x)
            (children ++ rest) := by
          rw [List.pairwise_append]
          refine ⟨?_, (List.pairwise_cons.1 H3c).2, ?_⟩
          · have hnd : children.Nodup := by
              have := branch_nodup σ hinv c
              rw [hσl] at this
              simpa using this
            refine List.Pairwise.imp_of_mem ?_ hnd
            intro a b ha hb' hne
            obtain ⟨ma, hma, hmpa⟩ := hlmem a ha
            obtain ⟨mb, hmb, hmpb⟩ := hlmem b hb'
            exact siblings_desc_disjoint σ hinv hma hmpa hmb hmpb hne
          · intro a ha b hbr x hda
            obtain ⟨ma, hma, hmpa⟩ := hlmem a ha
            exact hheadrel b hbr x (desc_up σ hma hmpa x hda)
        obtain ⟨hspec, hf1, hf2a, hf2b, hmem⟩ :=
          ih (V ++ [c])
            ⟨mdel (retainChild s.branches cnode.parent_id c) c, mdel s.nodes c⟩
            (children ++ rest) r.1 r.2 hH1' hs2H2a hs2H2b hH3a2 hH3b2 hH3c2 hr
        have hVL : (V ++ [c]) ++ r.2 = V ++ c :: r.2 := by simp
        rw [hVL] at hf1 hf2a hf2b
        refine ⟨?_, hf1, hf2a, hf2b, ?_⟩
        · simp [specGoF, hcσ, hσl, hspec]
        · intro x
          constructor
          · intro hx
            rcases List.mem_cons.1 hx with rfl | hx
            · exact ⟨x, by simp, desc_self σ x (by simp [hcσ])⟩
            · obtain ⟨w, hw, hd⟩ := (hmem x).1 hx
              rcases List.mem_append.1 hw with hw | hw
              · obtain ⟨m, hm, hmp⟩ := hlmem w hw
                exact ⟨c, by simp, desc_up σ hm hmp x hd⟩
              · exact ⟨w, by simp [hw], hd⟩
          · rintro ⟨w, hw, hd⟩
            rcases List.mem_cons.1 hw with rfl | hw
            · by_cases hxc : x = w
              · simp [hxc]
              · obtain ⟨e, m, hm, hmp, hde⟩ := desc_down_split σ hd hxc
                have hel : e ∈ children := by
                  have hegd : e ∈ (mget σ.branches w).getD [] :=
                    (branch_mem_iff σ hinv w e).2 ⟨m, hm, hmp⟩
                  rw [hσl] at hegd
                  simpa using hegd
                refine List.mem_cons_of_mem _ ((hmem x).2 ⟨e, ?_, hde⟩)
                simp [hel]
            · exact List.mem_cons_of_mem _ ((hmem x).2 ⟨w, by simp [hw], hd⟩)

theorem specPre_absent (s : Nodes) (id : Uid) (h : mget s.nodes id = none) :
    specPre s id = [] := by
  have h1 : specGoF s (potential s [id] + 1) [id]
      = specGoF s (potential s [id]) [] := by
    simp [specGoF, h]
  have h3 : potential s [id] = (potential s [id] - 1) + 1 := by
    simp only [potential, List.length_cons]
    omega
  rw [specPre, h1, h3]
  simp [specGoF]

/-- C2 (amended). On a store satisfying the forest invariant — in particular on
every store reachable by well-formed insertions — `delete(id)` returns the
pre-order traversal of the branches index from `id` (parents before children,
siblings in insertion order), which is exactly the set of present
reflexive-transitive descendants of `id`; exactly those ids are removed from
the node map; if `id` is absent the call returns `[]` and changes nothing; a
second `delete(id)` returns `[]`. Unqualified over all stores the claim is
false: a stale branches index makes `delete` miss descendants. -/
theorem delete_returns_preorder_descendants (s : Nodes) (hinv : StoreInv s) (id : Uid) :
    (Nodes.delete s id).2 = specPre s id
    ∧ (∀ x, mget (Nodes.delete s id).1.nodes x
        = if x ∈ (Nodes.delete s id).2 then none else mget s.nodes x)
    ∧ ((mget s.nodes id).isSome →
        ∀ x, x ∈ (Nodes.delete s id).2 ↔ Desc s id x)
    ∧ (mget s.nodes id = none → Nodes.delete s id = (s, []))
    ∧ (Nodes.delete (Nodes.delete s id).1 id).2 = [] := by
  by_cases hid : (mget s.nodes id).isSome
  · have hD := delete_eq_deleteGoF s id
    obtain ⟨hspec, hf1, hf2a, hf2b, hmem⟩ :=
      deleteGo_sim s hinv (potential s [id] + 1) [] s [id]
        (Nodes.delete s id).1 (Nodes.delete s id).2
        (fun x => by simp)
        (fun p _ => by
          cases hq : mget s.branches p with
          | none => simp
          | some l =>
            simp only [Option.map_some', Option.some.injEq]
            refine (List.filter_eq_self.2 ?_).symm
            intro a _
            simp)
        (fun p hp => absurd hp (List.not_mem_nil p))
        (fun w hw => by
          obtain rfl := List.mem_singleton.1 hw
          exact hid)
        (fun w hw x hd hx => absurd hx (List.not_mem_nil x))
        (by simp)
        (by rw [hD])
    simp only [List.nil_append] at hf1
    refine ⟨?_, hf1, ?_, ?_, ?_⟩
    · rw [specPre, hspec]
      simp
    · intro _ x
      rw [hmem x]
      simp
    · intro hnone
      rw [hnone] at hid
      simp at hid
    · have h2 := delete_twice s id
      rw [h2]
  · have hnone : mget s.nodes id = none := by
      cases hq : mget s.nodes id
      · rfl
      · rw [hq] at hid
        simp at hid
    have habs := delete_absent s id hnone
    refine ⟨?_, ?_, ?_, fun _ => habs, ?_⟩
    · rw [habs, specPre_absent s id hnone]
    · intro x
      rw [habs]
      simp
    · intro hcon
      rw [hnone] at hcon
      simp at hcon
    · rw [habs]
      show (Nodes.delete s id).2 = []
      rw [habs]

/-- C2 counterexample to the unqualified claim: in `c2Store` — built purely by
`add` and `delete` calls — the branches index lists `2` under `1` and `3`
under `2`, so `3` is a reflexive-transitive descendant of `1` computed through
the branches index and is present in the node map, yet `delete(1)` returns
only `[1]` and leaves `3` in the store. -/
theorem delete_misses_index_descendant :
    (c2Store.delete 1).2 = [1]
    ∧ 2 ∈ (mget c2Store.branches 1).getD []
    ∧ 3 ∈ (mget c2Store.branches 2).getD []
    ∧ (mget c2Store.nodes 3).isSome
    ∧ (mget (c2Store.delete 1).1.nodes 3).isSome := by decide

/-! ## Preservation of the invariant under the three operations -/

theorem iterP_succ_some (s : Nodes) {x : Uid} {nd : LockedNode} (k : Nat)
    (h : mget s.nodes x = some nd) :
    iterP s (k + 1) x = iterP s k nd.parent_id := by
  show (match mget s.nodes x with
        | none => none
        | some nd => iterP s k nd.parent_id) = _
  rw [h]

theorem iterP_succ_none (s : Nodes) {x : Uid} (k : Nat)
    (h : mget s.nodes x = none) :
    iterP s (k + 1) x = none := by
  show (match mget s.nodes x with
        | none => none
        | some nd => iterP s k nd.parent_id) = _
  rw [h]

theorem iterP_agree_of_avoid (s s2 : Nodes) (id0 : Uid)
    (heq : ∀ y, y ≠ id0 → mget s2.nodes y = mget s.nodes y) :
    ∀ k x, (∀ j v, j < k → iterP s2 j x = some v → v ≠ id0) →
      iterP s2 k x = iterP s k x := by
  intro k
  induction k with
  | zero => intro x _; rfl
  | succ k ih =>
    intro x hav
    have hx : x ≠ id0 := fun he => hav 0 x (by omega) rfl he
    cases hm : mget s.nodes x with
    | none =>
      rw [iterP_succ_none s k hm, iterP_succ_none s2 k (by rw [heq x hx]; exact hm)]
    | some nd =>
      rw [iterP_succ_some s k hm, iterP_succ_some s2 k (by rw [heq x hx]; exact hm)]
      refine ih nd.parent_id ?_
      intro j v hj hv
      refine hav (j + 1) v (by omega) ?_
      rw [iterP_succ_some s2 j (by rw [heq x hx]; exact hm)]
      exact hv

theorem reach_transfer (s s2 : Nodes) (id0 : Uid)
    (heq : ∀ y, y ≠ id0 → mget s2.nodes y = mget s.nodes y)
    {x : Uid} {j : Nat} (h : iterP s2 j x = some id0) :
    ∃ m, iterP s m x = some id0 := by
  classical
  have hex : ∃ i, iterP s2 i x = some id0 := ⟨j, h⟩
  refine ⟨Nat.find hex, ?_⟩
  rw [← iterP_agree_of_avoid s s2 id0 heq (Nat.find hex) x ?_]
  · exact Nat.find_spec hex
  · intro i v hi hv he
    subst he
    exact Nat.find_min hex hi hv

theorem cycle_rotate (s2 : Nodes) {x id0 : Uid} {k j : Nat} (hj : j ≤ k)
    (hcyc : iterP s2 (k + 1) x = some x) (hid : iterP s2 j x = some id0) :
    iterP s2 (k + 1) id0 = some id0 := by
  have h1 : iterP s2 (k + 1 - j) id0 = some x := by
    have h2 : iterP s2 (j + (k + 1 - j)) x = some x := by
      rw [show j + (k + 1 - j) = k + 1 by omega]
      exact hcyc
    rw [iterP_add, hid] at h2
    simpa using h2
  have h3 : iterP s2 ((k + 1 - j) + j) id0 = some id0 := by
    rw [iterP_add, h1]
    simpa using hid
  rw [show (k + 1 - j) + j = k + 1 by omega] at h3
  exact h3

/-- If the node map changes only at `id0`, the store was acyclic, and the chain
of the *old* store starting at the new parent pointer of `id0` never reaches
`id0`, the updated store is acyclic. -/
theorem acyclic_update (s s2 : Nodes) (id0 : Uid)
    (heq : ∀ y, y ≠ id0 → mget s2.nodes y = mget s.nodes y)
    (hs : AcyclicS s)
    (hnr : ∀ nd, mget s2.nodes id0 = some nd →
      ∀ j v, iterP s j nd.parent_id = some v → v ≠ id0) :
    AcyclicS s2 := by
  intro x k hcyc
  by_cases hvisit : ∃ j, j ≤ k ∧ iterP s2 j x = some id0
  · obtain ⟨j, hj, hjid⟩ := hvisit
    have hrot := cycle_rotate s2 hj hcyc hjid
    cases hm : mget s2.nodes id0 with
    | none =>
      rw [iterP_succ_none s2 k hm] at hrot
      exact Option.noConfusion hrot
    | some nd =>
      rw [iterP_succ_some s2 k hm] at hrot
      obtain ⟨m, hm'⟩ := reach_transfer s s2 id0 heq hrot
      exact hnr nd hm m id0 hm' rfl
  · push_neg at hvisit
    have hav : ∀ j v, j < k + 1 → iterP s2 j x = some v → v ≠ id0 := by
      intro j v hj hv he
      subst he
      exact hvisit j (by omega) hv
    rw [iterP_agree_of_avoid s s2 id0 heq (k + 1) x hav] at hcyc
    exact hs x k hcyc

theorem iterP_submap (s s2 : Nodes)
    (hsub : ∀ x v, mget s2.nodes x = some v → mget s.nodes x = some v) :
    ∀ k x v, iterP s2 k x = some v → iterP s k x = some v := by
  intro k
  induction k with
  | zero => intro x v h; exact h
  | succ k ih =>
    intro x v h
    cases hm : mget s2.nodes x with
    | none =>
      rw [iterP_succ_none s2 k hm] at h
      exact Option.noConfusion h
    | some nd =>
      rw [iterP_succ_some s2 k hm] at h
      rw [iterP_succ_some s k (hsub x nd hm)]
      exact ih _ _ h

theorem desc_trans (s : Nodes) {a b c : Uid}
    (h1 : Desc s a b) (h2 : Desc s b c) : Desc s a c := by
  obtain ⟨hc, k2, hk2⟩ := h2
  obtain ⟨hb, k1, hk1⟩ := h1
  exact ⟨hc, k2 + k1, by rw [iterP_add, hk2]; simpa using hk1⟩

/-- In a store whose present nodes have present-or-sentinel parents, a chain
starting anywhere other than a fresh (absent, non-sentinel) id never reaches
that id. -/
theorem chain_val_ne_fresh (s : Nodes) (hinv : StoreInv s) {t : Uid}
    (ht : mget s.nodes t = none) (htN : t ≠ NO_PARENT_ID) :
    ∀ j x v, x ≠ t → iterP s j x = some v → v ≠ t := by
  intro j
  cases j with
  | zero =>
    intro x v hx h
    simp only [iterP, Option.some.injEq] at h
    subst h
    exact hx
  | succ j =>
    intro x v _ h
    rw [show j + 1 = j + 1 by rfl, iterP_add] at h
    obtain ⟨u, hu, h1⟩ := Option.bind_eq_some.1 h
    rw [iterP_one] at h1
    obtain ⟨m, hm, hv⟩ := Option.map_eq_some'.1 h1
    subst hv
    rcases hinv.parentPresent u m hm with hc | hc
    · rw [hc]
      exact fun he => htN he.symm
    · intro he
      rw [he, ht] at hc
      simp at hc

theorem count_filter_true {p : Uid → Bool} {c : Uid} (l : List Uid) (h : p c = true) :
    (l.filter p).count c = l.count c := by
  induction l with
  | nil => rfl
  | cons a l ih =>
    by_cases ha : a = c
    · subst ha
      simp [List.filter, h, List.count_cons, ih]
    · cases hp : p a <;>
        simp [List.filter, hp, List.count_cons, ih, ha]

theorem count_filter_false {p : Uid → Bool} {c : Uid} (l : List Uid) (h : p c = false) :
    (l.filter p).count c = 0 := by
  induction l with
  | nil => rfl
  | cons a l ih =>
    by_cases ha : a = c
    · subst ha
      simp [List.filter, h, ih]
    · cases hp : p a <;> simp [List.filter, hp, List.count_cons, ih, ha]

theorem inv_new : StoreInv Nodes.new := by
  refine ⟨?_, ?_, ?_, ?_, ?_⟩
  · intro k nd h
    simp [Nodes.new, mget] at h
  · rfl
  · intro k nd h
    simp [Nodes.new, mget] at h
  · intro p c
    simp [Nodes.new, mget]
  · intro x k h
    rw [iterP_succ_none Nodes.new k (by rfl)] at h
    exact Option.noConfusion h


theorem inv_add (s : Nodes) (hinv : StoreInv s) (n : LockedNode)
    (hwf : wfAdd s n = true) : StoreInv (s.add n) := by
  simp only [wfAdd, Bool.and_eq_true, Bool.or_eq_true, decide_eq_true_eq,
    Option.isNone_iff_eq_none] at hwf
  obtain ⟨⟨hfresh, hidN⟩, hpar⟩ := hwf
  have hnodes : (s.add n).nodes = mput s.nodes n.id n := rfl
  have hbr : (s.add n).branches
      = mput s.branches n.parent_id (((mget s.branches n.parent_id).getD []) ++ [n.id]) := rfl
  have hmid : mget (s.add n).nodes n.id = some n := by
    rw [hnodes]
    exact mget_mput_self _ _ _
  have hmne : ∀ y, y ≠ n.id → mget (s.add n).nodes y = mget s.nodes y := by
    intro y hy
    rw [hnodes]
    exact mget_mput_ne _ _ _ _ (fun he => hy he.symm)
  have hparne : n.parent_id ≠ n.id := by
    rcases hpar with hc | hc
    · rw [hc]
      exact fun he => hidN he.symm
    · intro he
      rw [he, hfresh] at hc
      simp at hc
  refine ⟨?_, ?_, ?_, ?_, ?_⟩
  · intro k nd h
    by_cases hk : k = n.id
    · subst hk
      rw [hmid] at h
      obtain rfl := Option.some.inj h
      rfl
    · rw [hmne k hk] at h
      exact hinv.idKey k nd h
  · rw [hmne NO_PARENT_ID (fun he => hidN he.symm)]
    exact hinv.noSentinel
  · intro k nd h
    by_cases hk : k = n.id
    · subst hk
      rw [hmid] at h
      obtain rfl := Option.some.inj h
      rcases hpar with hc | hc
      · exact Or.inl hc
      · refine Or.inr ?_
        rw [hmne n.parent_id hparne]
        exact hc
    · rw [hmne k hk] at h
      rcases hinv.parentPresent k nd h with hc | hc
      · exact Or.inl hc
      · refine Or.inr ?_
        by_cases hp : nd.parent_id = n.id
        · rw [hp, hmid]
          rfl
        · rw [hmne nd.parent_id hp]
          exact hc
  · intro p c
    by_cases hp : p = n.parent_id
    · have hl : mget (s.add n).branches p
          = some (((mget s.branches n.parent_id).getD []) ++ [n.id]) := by
        rw [hbr, hp]
        exact mget_mput_self _ _ _
      rw [hl]
      simp only [Option.getD_some, List.count_append]
      by_cases hc : c = n.id
      · have h0 := hinv.branchCount n.parent_id n.id
        simp only [hfresh] at h0
        rw [hc]
        simp [hmid, h0, hp]
      · rw [hmne c hc, hp]
        have h0 := hinv.branchCount n.parent_id c
        simp [h0, hc]
    · have hl : mget (s.add n).branches p = mget s.branches p := by
        rw [hbr]
        exact mget_mput_ne _ _ _ _ (fun he => hp he.symm)
      rw [hl]
      by_cases hc : c = n.id
      · have h0 := hinv.branchCount p n.id
        simp only [hfresh] at h0
        have hp2 : n.parent_id ≠ p := fun he => hp he.symm
        rw [hc]
        simp [hmid, h0, hp2]
      · rw [hmne c hc]
        exact hinv.branchCount p c
  · refine acyclic_update s (s.add n) n.id hmne hinv.acyclic ?_
    intro nd hnd j v hj
    rw [hmid] at hnd
    obtain rfl := Option.some.inj hnd
    exact chain_val_ne_fresh s hinv hfresh hidN j n.parent_id v hparne hj

theorem delete_state_char (s : Nodes) (hinv : StoreInv s) (id : Uid)
    (hid : (mget s.nodes id).isSome) :
    (∀ x, mget (s.delete id).1.nodes x
        = if x ∈ (s.delete id).2 then none else mget s.nodes x)
    ∧ (∀ p, p ∉ (s.delete id).2 → mget (s.delete id).1.branches p
        = (mget s.branches p).map (List.filter (fun e => decide (e ∉ (s.delete id).2))))
    ∧ (∀ p, p ∈ (s.delete id).2 → mget (s.delete id).1.branches p = none)
    ∧ (∀ x, x ∈ (s.delete id).2 ↔ Desc s id x) := by
  have hD := delete_eq_deleteGoF s id
  obtain ⟨hspec, hf1, hf2a, hf2b, hmem⟩ :=
    deleteGo_sim s hinv (potential s [id] + 1) [] s [id]
      (Nodes.delete s id).1 (Nodes.delete s id).2
      (fun x => by simp)
      (fun p _ => by
        cases hq : mget s.branches p with
        | none => simp
        | some l =>
          simp only [Option.map_some', Option.some.injEq]
          refine (List.filter_eq_self.2 ?_).symm
          intro a _
          simp)
      (fun p hp => absurd hp (List.not_mem_nil p))
      (fun w hw => by
        obtain rfl := List.mem_singleton.1 hw
        exact hid)
      (fun w hw x hd hx => absurd hx (List.not_mem_nil x))
      (by simp)
      (by rw [hD])
  simp only [List.nil_append] at hf1 hf2a hf2b
  refine ⟨hf1, hf2a, hf2b, ?_⟩
  intro x
  rw [hmem x]
  simp

theorem inv_delete (s : Nodes) (hinv : StoreInv s) (id : Uid) :
    StoreInv (s.delete id).1 := by
  by_cases hid : (mget s.nodes id).isSome
  · obtain ⟨hf1, hf2a, hf2b, hmem⟩ := delete_state_char s hinv id hid
    refine ⟨?_, ?_, ?_, ?_, ?_⟩
    · intro k nd h
      rw [hf1 k] at h
      by_cases hk : k ∈ (s.delete id).2
      · rw [if_pos hk] at h
        exact Option.noConfusion h
      · rw [if_neg hk] at h
        exact hinv.idKey k nd h
    · rw [hf1 NO_PARENT_ID]
      by_cases hk : NO_PARENT_ID ∈ (s.delete id).2
      · rw [if_pos hk]
      · rw [if_neg hk]
        exact hinv.noSentinel
    · intro k nd h
      rw [hf1 k] at h
      by_cases hk : k ∈ (s.delete id).2
      · rw [if_pos hk] at h
        exact Option.noConfusion h
      · rw [if_neg hk] at h
        rcases hinv.parentPresent k nd h with hc | hc
        · exact Or.inl hc
        · refine Or.inr ?_
          rw [hf1 nd.parent_id]
          have hpD : nd.parent_id ∉ (s.delete id).2 := by
            intro hmem2
            have hdp : Desc s id nd.parent_id := (hmem _).1 hmem2
            have hdk : Desc s id k :=
              desc_trans s hdp ⟨by simp [h], 1, by rw [iterP_one, h]; rfl⟩
            exact hk ((hmem k).2 hdk)
          rw [if_neg hpD]
          exact hc
    · intro p c
      by_cases hp : p ∈ (s.delete id).2
      · rw [hf2b p hp, hf1 c]
        by_cases hc : c ∈ (s.delete id).2
        · rw [if_pos hc]
          simp
        · rw [if_neg hc]
          cases hm : mget s.nodes c with
          | none => simp
          | some nd =>
            have hne : nd.parent_id ≠ p := by
              intro he
              have hdp : Desc s id p := (hmem p).1 hp
              have hdc : Desc s id c :=
                desc_trans s hdp ⟨by simp [hm], 1, by rw [iterP_one, hm]; simpa using he⟩
              exact hc ((hmem c).2 hdc)
            simp [hne]
      · rw [hf2a p hp, hf1 c]
        cases hq : mget s.branches p with
        | none =>
          have h0 := hinv.branchCount p c
          rw [hq] at h0
          simp only [Option.getD_none] at h0
          by_cases hc : c ∈ (s.delete id).2
          · rw [if_pos hc]
            simp
          · rw [if_neg hc]
            simpa using h0
        | some l =>
          simp only [Option.map_some', Option.getD_some]
          by_cases hc : c ∈ (s.delete id).2
          · rw [if_pos hc]
            rw [count_filter_false (p := fun e => decide (e ∉ (s.delete id).2)) (c := c)
              l (by simp [hc])]
          · rw [if_neg hc]
            rw [count_filter_true (p := fun e => decide (e ∉ (s.delete id).2)) (c := c)
              l (by simp [hc])]
            have h0 := hinv.branchCount p c
            rw [hq] at h0
            simpa using h0
    · intro x k hcyc
      have hsub : ∀ y v, mget (s.delete id).1.nodes y = some v → mget s.nodes y = some v := by
        intro y v hy
        rw [hf1 y] at hy
        by_cases hk : y ∈ (s.delete id).2
        · rw [if_pos hk] at hy
          exact Option.noConfusion hy
        · rw [if_neg hk] at hy
          exact hy
      exact hinv.acyclic x k (iterP_submap s _ hsub (k + 1) x x hcyc)
  · have hnone : mget s.nodes id = none := by
      cases hq : mget s.nodes id
      · rfl
      · rw [hq] at hid
        simp at hid
    rw [delete_absent s id hnone]
    exact hinv

theorem inv_move_core (s : Nodes) (hinv : StoreInv s) (id np : Uid) (node : LockedNode)
    (hm : mget s.nodes id = some node) (hnp : np ≠ NO_PARENT_ID)
    (hpe : node.parent_id ≠ np) (hanc : ancRoot s np id) :
    StoreInv { nodes := mput s.nodes id { node with parent_id := np }
             , branches :=
                 mput (retainChild s.branches node.parent_id id) np
                   (((mget (retainChild s.branches node.parent_id id) np).getD []) ++ [id]) } := by
  have hidkey : node.id = id := hinv.idKey id node hm
  have hidN : id ≠ NO_PARENT_ID := by
    intro he
    rw [he, hinv.noSentinel] at hm
    exact Option.noConfusion hm
  have hnpid : np ≠ id := ancRoot_start_ne s hnp hanc
  have hnppres : (mget s.nodes np).isSome := by
    obtain ⟨k, hk, hpre⟩ := hanc
    cases k with
    | zero =>
      simp only [iterP, Option.some.injEq] at hk
      exact absurd hk hnp
    | succ k =>
      have h1 : (iterP s 1 np).isSome :=
        iterP_isSome_of_le s (j := 1) (k := k + 1) np (by omega) (by simp [hk])
      rw [iterP_one] at h1
      simpa using h1
  have hcount_old : ((mget s.branches node.parent_id).getD []).count id = 1 := by
    have h0 := hinv.branchCount node.parent_id id
    rw [hm] at h0
    simpa using h0
  have hs2n_id : mget (mput s.nodes id { node with parent_id := np }) id
      = some { node with parent_id := np } := mget_mput_self _ _ _
  have hs2n_ne : ∀ y, y ≠ id → mget (mput s.nodes id { node with parent_id := np }) y
      = mget s.nodes y := by
    intro y hy
    exact mget_mput_ne _ _ _ _ (fun he => hy he.symm)
  have hb1np : mget (retainChild s.branches node.parent_id id) np = mget s.branches np :=
    retainChild_mget_ne _ _ _ _ hpe
  have hb1self : mget (retainChild s.branches node.parent_id id) node.parent_id
      = (mget s.branches node.parent_id).map (List.filter (fun e => decide (e ≠ id))) :=
    retainChild_mget_self _ _ _
  have hb1ne : ∀ q, q ≠ node.parent_id →
      mget (retainChild s.branches node.parent_id id) q = mget s.branches q := by
    intro q hq
    exact retainChild_mget_ne _ _ _ _ (fun he => hq he.symm)
  have hs2b_np : mget (mput (retainChild s.branches node.parent_id id) np
        (((mget (retainChild s.branches node.parent_id id) np).getD []) ++ [id])) np
      = some (((mget s.branches np).getD []) ++ [id]) := by
    rw [mget_mput_self, hb1np]
  have hs2b_ne : ∀ q, q ≠ np →
      mget (mput (retainChild s.branches node.parent_id id) np
        (((mget (retainChild s.branches node.parent_id id) np).getD []) ++ [id])) q
      = mget (retainChild s.branches node.parent_id id) q := by
    intro q hq
    exact mget_mput_ne _ _ _ _ (fun he => hq he.symm)
  refine ⟨?_, ?_, ?_, ?_, ?_⟩
  · intro k nd h2
    by_cases hk : k = id
    · rw [hk, hs2n_id] at h2
      rw [← Option.some.inj h2, hk]
      exact hidkey
    · rw [hs2n_ne k hk] at h2
      exact hinv.idKey k nd h2
  · show mget (mput s.nodes id { node with parent_id := np }) NO_PARENT_ID = none
    rw [hs2n_ne NO_PARENT_ID (fun he => hidN he.symm)]
    exact hinv.noSentinel
  · intro k nd h2
    by_cases hk : k = id
    · rw [hk, hs2n_id] at h2
      rw [← Option.some.inj h2]
      refine Or.inr ?_
      show (mget (mput s.nodes id { node with parent_id := np }) np).isSome
      rw [hs2n_ne np hnpid]
      exact hnppres
    · rw [hs2n_ne k hk] at h2
      rcases hinv.parentPresent k nd h2 with hc | hc
      · exact Or.inl hc
      · refine Or.inr ?_
        show (mget (mput s.nodes id { node with parent_id := np }) nd.parent_id).isSome
        by_cases hp : nd.parent_id = id
        · rw [hp, hs2n_id]
          rfl
        · rw [hs2n_ne nd.parent_id hp]
          exact hc
  · intro p c
    show ((mget (mput (retainChild s.branches node.parent_id id) np
        (((mget (retainChild s.branches node.parent_id id) np).getD []) ++ [id])) p).getD
          []).count c
      = (match mget (mput s.nodes id { node with parent_id := np }) c with
         | some nd => if nd.parent_id = p then 1 else 0
         | none => 0)
    by_cases hp : p = np
    · rw [hp, hs2b_np]
      simp only [Option.getD_some, List.count_append]
      by_cases hc : c = id
      · have h0 := hinv.branchCount np id
        simp only [hm, if_neg hpe] at h0
        rw [hc, hs2n_id]
        simp [h0]
      · rw [hs2n_ne c hc]
        have h0 := hinv.branchCount np c
        simp [h0, hc]
    · rw [hs2b_ne p hp]
      by_cases hpo : p = node.parent_id
      · rw [hpo, hb1self]
        cases hq : mget s.branches node.parent_id with
        | none =>
          rw [hq] at hcount_old
          simp at hcount_old
        | some l =>
          rw [hq] at hcount_old
          simp only [Option.getD_some] at hcount_old
          simp only [Option.map_some', Option.getD_some]
          by_cases hc : c = id
          · rw [hc]
            rw [count_filter_false (p := fun e => decide (e ≠ id)) (c := id) l (by simp)]
            rw [hs2n_id]
            have hne2 : np ≠ node.parent_id := fun he => hpe he.symm
            simp [hne2]
          · rw [count_filter_true (p := fun e => decide (e ≠ id)) (c := c) l (by simp [hc])]
            rw [hs2n_ne c hc]
            have h0 := hinv.branchCount node.parent_id c
            rw [hq] at h0
            simpa using h0
      · rw [hb1ne p hpo]
        by_cases hc : c = id
        · have h0 := hinv.branchCount p id
          simp only [hm] at h0
          have hne3 : ¬ node.parent_id = p := fun he => hpo he.symm
          rw [if_neg hne3] at h0
          rw [hc, hs2n_id]
          have hne2 : np ≠ p := fun he => hp he.symm
          simp [h0, hne2]
        · rw [hs2n_ne c hc]
          exact hinv.branchCount p c
  · refine acyclic_update s _ id hs2n_ne hinv.acyclic ?_
    intro nd hnd j v hj
    have hnd2 : mget (mput s.nodes id { node with parent_id := np }) id = some nd := hnd
    rw [hs2n_id] at hnd2
    have hj2 : iterP s j np = some v := by
      rw [← Option.some.inj hnd2] at hj
      exact hj
    obtain ⟨k, hk, hpre⟩ := hanc
    rcases lt_trichotomy j k with hlt | heq | hgt
    · exact (hpre j hlt v hj2).2
    · rw [heq, hk] at hj2
      rw [← Option.some.inj hj2]
      exact fun he => hidN he.symm
    · have hnone : iterP s j np = none := by
        rw [show j = k + (j - k) by omega, iterP_add, hk]
        simp only [Option.some_bind]
        rw [show j - k = (j - k - 1) + 1 by omega]
        exact iterP_succ_none s _ hinv.noSentinel
      rw [hnone] at hj2
      exact absurd hj2 (by simp)

theorem inv_move (s : Nodes) (hinv : StoreInv s) {id np : Uid}
    {r : Except NodeError Unit} {s' : Nodes}
    (h : s.move_to id np = some (r, s')) : StoreInv s' := by
  rw [Nodes.move_to] at h
  by_cases hnp : np = NO_PARENT_ID
  · rw [if_pos hnp] at h
    simp only [Option.some.injEq, Prod.mk.injEq] at h
    rw [← h.2]
    exact hinv
  · rw [if_neg hnp] at h
    cases hw : walkF s id (s.nodes.length + 1) np with
    | outOfFuel =>
      simp only [hw] at h
      exact Option.noConfusion h
    | hitId =>
      simp only [hw, Option.some.injEq, Prod.mk.injEq] at h
      rw [← h.2]
      exact hinv
    | missing =>
      simp only [hw, Option.some.injEq, Prod.mk.injEq] at h
      rw [← h.2]
      exact hinv
    | root =>
      simp only [hw] at h
      cases hm : mget s.nodes id with
      | none =>
        simp only [hm, Option.some.injEq, Prod.mk.injEq] at h
        rw [← h.2]
        exact hinv
      | some node =>
        simp only [hm] at h
        by_cases hpe : node.parent_id = np
        · simp only [if_pos hpe, Option.some.injEq, Prod.mk.injEq] at h
          rw [← h.2]
          exact hinv
        · simp only [if_neg hpe, Option.some.injEq, Prod.mk.injEq] at h
          rw [← h.2]
          exact inv_move_core s hinv id np node hm hnp hpe
            (walkF_root_sound s id (s.nodes.length + 1) np hw)

theorem inv_applyOp (s : Nodes) (hinv : StoreInv s) (op : Op)
    (hwf : (match op with | .add n => wfAdd s n | _ => true) = true) :
    StoreInv (applyOp s op) := by
  cases op with
  | add n => exact inv_add s hinv n hwf
  | moveTo id np =>
    show StoreInv (match s.move_to id np with
      | some (_, s') => s'
      | none => s)
    cases hmv : s.move_to id np with
    | none => exact hinv
    | some rs =>
      obtain ⟨r, s'⟩ := rs
      exact inv_move s hinv hmv
  | delete id => exact inv_delete s hinv id

theorem inv_fold : ∀ (ops : List Op) (s : Nodes), StoreInv s → wfFrom s ops = true →
    StoreInv (ops.foldl applyOp s) := by
  intro ops
  induction ops with
  | nil => intro s hinv _; exact hinv
  | cons op ops ih =>
    intro s hinv hwf
    simp only [wfFrom, Bool.and_eq_true] at hwf
    exact ih (applyOp s op) (inv_applyOp s hinv op hwf.1) hwf.2

theorem inv_run (ops : List Op) (h : WFOps ops) : StoreInv (run ops) :=
  inv_fold ops Nodes.new inv_new h

/-- C2 witness: on the concrete well-formed store built by `c2WitOps` the
invariant hypothesis holds and `delete` returns the pre-order traversal. -/
theorem delete_returns_preorder_descendants_witness :
    StoreInv (run c2WitOps)
    ∧ ((run c2WitOps).delete 0).2 = specPre (run c2WitOps) 0
    ∧ ((run c2WitOps).delete 0).2 = [0, 1, 2] :=
  ⟨inv_run c2WitOps (by decide : wfFrom Nodes.new c2WitOps = true)
  , (delete_returns_preorder_descendants (run c2WitOps)
      (inv_run c2WitOps (by decide : wfFrom Nodes.new c2WitOps = true)) 0).1
  , by decide⟩

/-- C3 (amended). Every state reachable from the empty store by a sequence of
operations whose insertions are well formed (fresh non-sentinel id, parent
present or sentinel) is acyclic: no node reaches itself by repeatedly
following `parent_id`. Unrestricted `add` breaks the property. -/
theorem reachable_wf_acyclic (ops : List Op) (h : WFOps ops) : AcyclicS (run ops) :=
  (inv_run ops h).acyclic

/-- C3 counterexample to the unqualified claim: `Nodes::add` performs no
validation, so the reachable state `run c3Ops` (a single `add` of a node that
is its own parent) contains a parent cycle. -/
theorem raw_add_creates_parent_cycle : ¬ AcyclicS (run c3Ops) :=
  fun h => h 5 0 (by decide)

/-- C3 witness: a concrete well-formed sequence of adds, a move and a delete
satisfies the hypothesis, and its final state is acyclic. -/
theorem reachable_wf_acyclic_witness :
    WFOps c3WitOps ∧ AcyclicS (run c3WitOps) :=
  ⟨(by decide : wfFrom Nodes.new c3WitOps = true)
  , reachable_wf_acyclic c3WitOps (by decide : wfFrom Nodes.new c3WitOps = true)⟩

theorem walkF_outOfFuel_chain (s : Nodes) (id : Uid) :
    ∀ f start, walkF s id f start = .outOfFuel → (iterP s f start).isSome := by
  intro f
  induction f with
  | zero => intro start _; simp [iterP]
  | succ f ih =>
    intro start h
    by_cases h1 : start = NO_PARENT_ID
    · simp [walkF, h1] at h
    · by_cases h2 : start = id
      · by_cases h3 : id = NO_PARENT_ID
        · simp [walkF, h1, h2, h3] at h
        · simp [walkF, h1, h2, h3] at h
      · simp only [walkF, if_neg h1, if_neg h2] at h
        cases hm : mget s.nodes start with
        | none => rw [hm] at h; simp at h
        | some nd =>
          rw [hm] at h
          rw [iterP_succ_some s f hm]
          exact ih nd.parent_id h

theorem iterP_long_cycle (s : Nodes) (x : Uid)
    (h : (iterP s (s.nodes.length + 1) x).isSome) :
    ∃ v k, iterP s (k + 1) v = some v := by
  by_cases hdist : ∀ i j, i < j → j < s.nodes.length + 1 → iterP s i x ≠ iterP s j x
  · obtain ⟨t, ht⟩ := Option.isSome_iff_exists.1 h
    have := short_reach_le s x t (s.nodes.length + 1) ht hdist
    omega
  · push_neg at hdist
    obtain ⟨i, j, hij, hjlt, heq⟩ := hdist
    obtain ⟨v, hv⟩ := Option.isSome_iff_exists.1
      (iterP_isSome_of_le s (j := i) (k := s.nodes.length + 1) x (by omega) h)
    have hvj : iterP s j x = some v := by
      rw [← heq]
      exact hv
    refine ⟨v, j - i - 1, ?_⟩
    have hsplit : iterP s (i + (j - i)) x = some v := by
      rw [show i + (j - i) = j by omega]
      exact hvj
    rw [iterP_add, hv] at hsplit
    simp only [Option.some_bind] at hsplit
    rw [show j - i = (j - i - 1) + 1 by omega] at hsplit
    exact hsplit

theorem move_to_isSome_of_acyclic (s : Nodes) (hac : AcyclicS s) (id np : Uid) :
    (s.move_to id np).isSome := by
  rw [Nodes.move_to]
  by_cases hnp : np = NO_PARENT_ID
  · rw [if_pos hnp]
    rfl
  · rw [if_neg hnp]
    cases hw : walkF s id (s.nodes.length + 1) np with
    | outOfFuel =>
      exfalso
      obtain ⟨v, k, hvk⟩ :=
        iterP_long_cycle s np (walkF_outOfFuel_chain s id (s.nodes.length + 1) np hw)
      exact hac v k hvk
    | hitId => rfl
    | missing => rfl
    | root =>
      cases hm : mget s.nodes id with
      | none => rfl
      | some node =>
        by_cases hpe : node.parent_id = np
        · simp [hpe]
        · simp [hpe]

/-- C4 (amended). On every state reachable by a sequence of operations whose
insertions are well formed, the ancestor walk of `move_to` terminates for every
pair of arguments, so `move_to` is total there. On raw reachable states with a
parent cycle the walk diverges. -/
theorem move_to_total_on_wf_states (ops : List Op) (h : WFOps ops) (id np : Uid) :
    ((run ops).move_to id np).isSome :=
  move_to_isSome_of_acyclic (run ops) (inv_run ops h).acyclic id np

/-- C4 counterexample to the unqualified claim: after two raw adds forming the
parent cycle `2 ↔ 3`, the walk of `move_to(1, 2)` revisits node `2` forever
(modelled by `none`). -/
theorem move_to_diverges_on_raw_cycle :
    (run c4Ops).move_to 1 2 = none ∧ iterP (run c4Ops) 2 2 = some 2 := by decide

/-- C4 witness: a concrete well-formed sequence satisfies the hypothesis and
`move_to` returns a result on it. -/
theorem move_to_total_on_wf_states_witness :
    WFOps c4WitOps ∧ ((run c4WitOps).move_to 1 0).isSome :=
  ⟨(by decide : wfFrom Nodes.new c4WitOps = true)
  , move_to_total_on_wf_states c4WitOps (by decide : wfFrom Nodes.new c4WitOps = true) 1 0⟩

/-! ## The signup handler -/

theorem foldl_add_nodes_not_mem (l : List LockedNode) :
    ∀ (s : Nodes) (k : Uid), k ∉ l.map LockedNode.id →
      mget (l.foldl (fun ns n => Nodes.add ns n) s).nodes k = mget s.nodes k := by
  induction l with
  | nil => intro s k _; rfl
  | cons a l ih =>
    intro s k hk
    simp only [List.map_cons, List.mem_cons, not_or] at hk
    rw [List.foldl_cons, ih (s.add a) k hk.2]
    show mget (mput s.nodes a.id a) k = mget s.nodes k
    exact mget_mput_ne _ _ _ _ (fun he => hk.1 he.symm)

theorem foldl_add_nodes_mem (l : List LockedNode) :
    ∀ (s : Nodes) (n : LockedNode), n ∈ l → (l.map LockedNode.id).Nodup →
      mget (l.foldl (fun ns n => Nodes.add ns n) s).nodes n.id = some n := by
  induction l with
  | nil => intro s n hn _; exact absurd hn (List.not_mem_nil n)
  | cons a l ih =>
    intro s n hn hnd
    simp only [List.map_cons, List.nodup_cons] at hnd
    rw [List.foldl_cons]
    rcases List.mem_cons.1 hn with rfl | hn
    · rw [foldl_add_nodes_not_mem l (s.add n) n.id hnd.1]
      exact mget_mput_self _ _ _
    · exact ih (s.add a) n hn hnd.2

theorem foldl_add_share_fields (l : List LockedShare) :
    ∀ sh : Shares,
      (l.foldl (fun sh s => Shares.add_share sh s) sh).shares = sh.shares ++ l
      ∧ (l.foldl (fun sh s => Shares.add_share sh s) sh).invites = sh.invites
      ∧ (l.foldl (fun sh s => Shares.add_share sh s) sh).intents = sh.intents := by
  induction l with
  | nil => intro sh; exact ⟨by simp, rfl, rfl⟩
  | cons a l ih =>
    intro sh
    rw [List.foldl_cons]
    obtain ⟨h1, h2, h3⟩ := ih (sh.add_share a)
    refine ⟨?_, ?_, ?_⟩
    · rw [h1]
      show (sh.shares ++ [a]) ++ l = sh.shares ++ a :: l
      simp
    · exact h2
    · exact h3

theorem ack_fields (sh : Shares) (email : String) (pk : Public) :
    (sh.ack_invite_intent email pk).1.shares = sh.shares
    ∧ (sh.ack_invite_intent email pk).1.invites = sh.invites := by
  cases hm : mget sh.intents email with
  | none =>
    simp only [Shares.ack_invite_intent, hm]
    exact ⟨trivial, trivial⟩
  | some intent =>
    cases hr : intent.receiver with
    | some v =>
      simp only [Shares.ack_invite_intent, hm, hr]
      exact ⟨trivial, trivial⟩
    | none =>
      simp only [Shares.ack_invite_intent, hm, hr]
      exact ⟨trivial, trivial⟩

theorem ack_intents_hit (sh : Shares) (email : String) (pk : Public) (intent : InviteIntent)
    (hm : mget sh.intents email = some intent) (hr : intent.receiver = none) :
    mget (sh.ack_invite_intent email pk).1.intents email
      = some { intent with receiver := some pk } := by
  rw [Shares.ack_invite_intent]
  simp only [hm, hr]
  exact mget_mput_self _ _ _

/-- C9 (amended). When the ids of the payload's root nodes are pairwise
distinct, signup has all the claimed effects: every root is stored, the shares
are appended, the pinned invite for the email is gone, a pending intent for
the email whose receiver was `None` is acknowledged with the new public
identity, and the user store maps the user id to its private bundle and public
identity and the email to the user id. With a duplicated root id, the earlier
root is overwritten and is not in the store. -/
theorem signup_effects (st : ServerState) (payload : Signup)
    (hnd : (payload.user.roots.map LockedNode.id).Nodup) :
    (∀ n ∈ payload.user.roots,
        mget (signup st payload).nodes.nodes n.id = some n)
    ∧ (signup st payload).sharesStore.shares
        = st.sharesStore.shares ++ payload.user.shares
    ∧ (signup st payload).sharesStore.invie_for_mail payload.email = none
    ∧ (∀ intent, mget st.sharesStore.intents payload.email = some intent →
        intent.receiver = none →
        mget (signup st payload).sharesStore.intents payload.email
          = some { intent with receiver := some payload.user._pub })
    ∧ mget (signup st payload).users.private_keys payload.user._pub.id
        = some payload.user.encrypted_priv
    ∧ mget (signup st payload).users.public_keys payload.user._pub.id
        = some payload.user._pub
    ∧ mget (signup st payload).users.credentials payload.email
        = some payload.user._pub.id := by
  obtain ⟨hsh1, hsh2, hsh3⟩ := foldl_add_share_fields payload.user.shares
    (st.sharesStore.ack_invite_intent payload.email payload.user._pub).1
  obtain ⟨hack1, hack2⟩ := ack_fields st.sharesStore payload.email payload.user._pub
  refine ⟨?_, ?_, ?_, ?_, ?_, ?_, ?_⟩
  · intro n hn
    exact foldl_add_nodes_mem _ _ _ hn hnd
  · show (payload.user.shares.foldl (fun sh s => Shares.add_share sh s)
        (st.sharesStore.ack_invite_intent payload.email payload.user._pub).1).shares
      = st.sharesStore.shares ++ payload.user.shares
    rw [hsh1, hack1]
  · show mget (mdel (payload.user.shares.foldl (fun sh s => Shares.add_share sh s)
        (st.sharesStore.ack_invite_intent payload.email payload.user._pub).1).invites
        payload.email) payload.email = none
    exact mget_mdel_self _ _
  · intro intent hm hr
    show mget (payload.user.shares.foldl (fun sh s => Shares.add_share sh s)
        (st.sharesStore.ack_invite_intent payload.email payload.user._pub).1).intents
        payload.email = _
    rw [hsh3]
    exact ack_intents_hit st.sharesStore payload.email payload.user._pub intent hm hr
  · exact mget_mput_self _ _ _
  · exact mget_mput_self _ _ _
  · exact mget_mput_self _ _ _

/-- C9 counterexample to the unqualified claim: with two payload roots sharing
id `0`, the second insertion overwrites the first, so the first root node is
not in the node store after signup. -/
theorem signup_duplicate_root_lost :
    mkNode 0 NO_PARENT_ID ∈ c9Payload.user.roots
    ∧ mget (signup c9State c9Payload).nodes.nodes 0 ≠ some (mkNode 0 NO_PARENT_ID) := by
  decide

/-- C9 witness: a payload with distinct root ids satisfies the hypothesis and
both roots are stored. -/
theorem signup_effects_witness :
    (c9WitPayload.user.roots.map LockedNode.id).Nodup
    ∧ mget (signup c9State c9WitPayload).nodes.nodes 1 = some (mkNode 1 0) :=
  ⟨by decide
  , (signup_effects c9State c9WitPayload (by decide)).1 (mkNode 1 0) (by decide)⟩
